/-
Verification of the wiki-search repository: a shallow embedding of the
link-graph builder and weighted path-search engine (src/main.rs) and of the
minimal ZIM archive reader (src/zim.rs), with theorems settling the stated
properties of the system.

Modelling conventions:
* interned string keys (lasso Spur) are natural numbers;
* f32 weights and distances are rational numbers (exact arithmetic);
* HashMap / DashMap values are association lists, HashSet is Finset,
  BinaryHeap is a list popped at a least-distance entry;
* the xz decompressor is an explicit function argument (external library).
-/
import Mathlib

namespace WikiSearch

/-! ## Data model of src/main.rs -/

/-- Interned key for an article path (lasso `Spur`). -/
abbrev Node := ℕ

/-- `struct LinkInfo { index: usize, weight: f32 }`. -/
structure LinkInfo where
  index : ℕ
  weight : ℚ
  deriving Repr, DecidableEq

/-- `struct Page { links_to_weight: HashMap<Spur, LinkInfo> }`,
with the hash map as an association list in iteration order. -/
structure Page where
  links_to_weight : List (Node × LinkInfo)
  deriving Repr, DecidableEq

/-- `link_to_page: DashMap<Spur, Page>` as an association list. -/
abbrev Graph := List (Node × Page)

/-- Association-list lookup for `link_to_page.get`. -/
def lookupPage : Graph → Node → Option Page
  | [], _ => none
  | (k, pg) :: rest, v => if k = v then some pg else lookupPage rest v

/-- `struct PathInfo { distance: f32, path: Vec<Spur> }`. -/
structure PathInfo where
  distance : ℚ
  path : List Node
  deriving Repr, DecidableEq

/-- A walk through the stored graph: `Walk g u t p c` says that `p` is a
sequence of nodes leading from `u` to `t`, each step following a stored link,
and that the summed per-edge cost (link weight + 1, as in
`p.priority.0.0 + info.weight + 1_f32`) is `c`. -/
inductive Walk (g : Graph) : Node → Node → List Node → ℚ → Prop
  | single (v : Node) : Walk g v v [v] 0
  | cons {v t : Node} {p : List Node} {c : ℚ} (u : Node) (pg : Page) (li : LinkInfo)
      (hpg : lookupPage g u = some pg) (hli : (v, li) ∈ pg.links_to_weight)
      (hw : Walk g v t p c) : Walk g u t (u :: p) (li.weight + 1 + c)

theorem Walk.path_ne_nil {g : Graph} {u t : Node} {p : List Node} {c : ℚ}
    (h : Walk g u t p c) : p ≠ [] := by
  cases h <;> simp

theorem Walk.head_eq {g : Graph} {u t : Node} {p : List Node} {c : ℚ}
    (h : Walk g u t p c) : p.head? = some u := by
  cases h <;> simp

theorem Walk.last_eq {g : Graph} {u t : Node} {p : List Node} {c : ℚ}
    (h : Walk g u t p c) : p.getLast? = some t := by
  induction h with
  | single v => simp
  | cons u pg li hpg hli hw ih =>
    rename_i v t p c
    rcases p with _ | ⟨x, xs⟩
    · cases hw.path_ne_nil rfl
    · simpa [List.getLast?_cons_cons] using ih

/-- Appending one stored edge to the end of a walk. -/
theorem Walk.snoc {g : Graph} {s v : Node} {p : List Node} {c : ℚ}
    (h : Walk g s v p c) {pg : Page} {x : Node} {li : LinkInfo}
    (hpg : lookupPage g v = some pg) (hli : (x, li) ∈ pg.links_to_weight) :
    Walk g s x (p ++ [x]) (c + li.weight + 1) := by
  induction h with
  | single w =>
    have : (0 : ℚ) + li.weight + 1 = li.weight + 1 + 0 := by ring
    rw [this]
    exact Walk.cons w pg li hpg hli (Walk.single x)
  | cons u pg0 li0 hpg0 hli0 hw ih =>
    rename_i v0 t0 p0 c0
    have : li0.weight + 1 + c0 + li.weight + 1 = li0.weight + 1 + (c0 + li.weight + 1) := by ring
    rw [this]
    exact Walk.cons u pg0 li0 hpg0 hli0 (ih hpg)

/-- Weight nonnegativity hypothesis: every stored link weight is nonnegative
(the program only ever stores weights in (0, 1]). -/
def NonnegWeights (g : Graph) : Prop :=
  ∀ pr ∈ g, ∀ lk ∈ pr.2.links_to_weight, 0 ≤ lk.2.weight

instance (g : Graph) : Decidable (NonnegWeights g) := by
  unfold NonnegWeights; infer_instance

theorem lookupPage_mem {g : Graph} {v : Node} {pg : Page}
    (h : lookupPage g v = some pg) : (v, pg) ∈ g := by
  induction g with
  | nil => simp [lookupPage] at h
  | cons pr rest ih =>
    rcases pr with ⟨k, q⟩
    by_cases hk : k = v
    · subst hk
      simp [lookupPage] at h
      subst h
      exact List.mem_cons_self _ _
    · simp only [lookupPage, if_neg hk] at h
      exact List.mem_cons_of_mem _ (ih h)

theorem Walk.cost_nonneg {g : Graph} (hg : NonnegWeights g) {u t : Node}
    {p : List Node} {c : ℚ} (h : Walk g u t p c) : 0 ≤ c := by
  induction h with
  | single v => exact le_refl 0
  | cons u pg li hpg hli hw ih =>
    have hw0 : 0 ≤ li.weight := hg _ (lookupPage_mem hpg) _ hli
    linarith

/-! ## Priority frontier (`BinaryHeap<PrioritizedPage>`)

`PrioritizedPage` orders by `Reverse(OrderedFloat(distance))`, so the binary
heap pops an entry of least cumulative distance (ties broken arbitrarily; the
model deterministically pops the earliest least entry). -/

/-- `struct PrioritizedPage { priority, link, path }`. -/
structure HeapEntry where
  dist : ℚ
  link : Node
  path : List Node
  deriving Repr, DecidableEq

abbrev Heap := List HeapEntry

/-- Pop an entry of minimal distance from the frontier. -/
def popMin : Heap → Option (HeapEntry × Heap)
  | [] => none
  | e :: es =>
    match popMin es with
    | none => some (e, [])
    | some (m, rest) => if e.dist ≤ m.dist then some (e, es) else some (m, e :: rest)

theorem popMin_nil_iff {h : Heap} : popMin h = none ↔ h = [] := by
  cases h with
  | nil => simp [popMin]
  | cons e es =>
    simp only [popMin]
    cases hes : popMin es with
    | none => simp
    | some p => rcases p with ⟨m, rest⟩; by_cases hle : e.dist ≤ m.dist <;> simp [hle]

theorem popMin_perm {h : Heap} {e : HeapEntry} {rest : Heap}
    (hp : popMin h = some (e, rest)) : h.Perm (e :: rest) := by
  induction h generalizing e rest with
  | nil => simp [popMin] at hp
  | cons a as ih =>
    simp only [popMin] at hp
    cases has : popMin as with
    | none =>
      rw [has] at hp
      have : as = [] := popMin_nil_iff.mp has
      subst this
      cases hp
      exact List.Perm.refl _
    | some p =>
      rcases p with ⟨m, mrest⟩
      rw [has] at hp
      dsimp only at hp
      by_cases hle : a.dist ≤ m.dist
      · rw [if_pos hle] at hp
        cases hp
        exact List.Perm.refl _
      · rw [if_neg hle] at hp
        cases hp
        exact ((ih has).cons a).trans (List.Perm.swap e a mrest)

theorem popMin_mem {h : Heap} {e : HeapEntry} {rest : Heap}
    (hp : popMin h = some (e, rest)) : e ∈ h :=
  (popMin_perm hp).mem_iff.mpr (List.mem_cons_self _ _)

theorem popMin_rest_subset {h : Heap} {e : HeapEntry} {rest : Heap}
    (hp : popMin h = some (e, rest)) : ∀ x ∈ rest, x ∈ h :=
  fun x hx => (popMin_perm hp).mem_iff.mpr (List.mem_cons_of_mem _ hx)

theorem popMin_length {h : Heap} {e : HeapEntry} {rest : Heap}
    (hp : popMin h = some (e, rest)) : rest.length + 1 = h.length := by
  have := (popMin_perm hp).length_eq
  simpa using this.symm

theorem popMin_min {h : Heap} {e : HeapEntry} {rest : Heap}
    (hp : popMin h = some (e, rest)) : ∀ x ∈ h, e.dist ≤ x.dist := by
  induction h generalizing e rest with
  | nil => simp [popMin] at hp
  | cons a as ih =>
    simp only [popMin] at hp
    cases has : popMin as with
    | none =>
      rw [has] at hp
      have : as = [] := popMin_nil_iff.mp has
      subst this
      cases hp
      intro x hx
      simp at hx
      simp [hx]
    | some p =>
      rcases p with ⟨m, mrest⟩
      rw [has] at hp
      dsimp only at hp
      by_cases hle : a.dist ≤ m.dist
      · rw [if_pos hle] at hp
        cases hp
        intro x hx
        rcases List.mem_cons.mp hx with rfl | hx
        · exact le_refl _
        · exact le_trans hle (ih has x hx)
      · rw [if_neg hle] at hp
        cases hp
        intro x hx
        rcases List.mem_cons.mp hx with rfl | hx
        · exact le_of_not_le hle
        · exact ih has x hx

/-! ## Node universe and termination measure -/

/-- All link targets of one page, as a finite set. -/
def pageTargets (pg : Page) : Finset ℕ :=
  pg.links_to_weight.foldr (fun pr acc => insert pr.1 acc) ∅

/-- All page keys and link targets appearing in the graph store. -/
def graphNodes (g : Graph) : Finset ℕ :=
  g.foldr (fun pr acc => insert pr.1 (pageTargets pr.2 ∪ acc)) ∅

/-- Total number of stored links: an upper bound for one round of pushes. -/
def graphEdgeBound (g : Graph) : ℕ :=
  (g.map (fun pr => pr.2.links_to_weight.length)).sum

theorem mem_pageTargets {pg : Page} {x : Node} {li : LinkInfo}
    (h : (x, li) ∈ pg.links_to_weight) : x ∈ pageTargets pg := by
  rcases pg with ⟨links⟩
  induction links with
  | nil => cases h
  | cons a as ih =>
    rcases List.mem_cons.mp h with rfl | h
    · simp [pageTargets]
    · simp only [pageTargets, List.foldr_cons]
      exact Finset.mem_insert_of_mem (ih h)

theorem key_mem_graphNodes {g : Graph} {v : Node} {pg : Page}
    (h : lookupPage g v = some pg) : v ∈ graphNodes g := by
  induction g with
  | nil => simp [lookupPage] at h
  | cons pr rest ih =>
    rcases pr with ⟨k, q⟩
    by_cases hk : k = v
    · subst hk
      simp [graphNodes]
    · simp only [lookupPage, if_neg hk] at h
      simp only [graphNodes, List.foldr_cons]
      exact Finset.mem_insert_of_mem (Finset.mem_union_right _ (ih h))

theorem target_mem_graphNodes {g : Graph} {v : Node} {pg : Page} {x : Node} {li : LinkInfo}
    (h : lookupPage g v = some pg) (hx : (x, li) ∈ pg.links_to_weight) :
    x ∈ graphNodes g := by
  induction g with
  | nil => simp [lookupPage] at h
  | cons pr rest ih =>
    rcases pr with ⟨k, q⟩
    by_cases hk : k = v
    · subst hk
      simp [lookupPage] at h
      subst h
      simp only [graphNodes, List.foldr_cons]
      exact Finset.mem_insert_of_mem (Finset.mem_union_left _ (mem_pageTargets hx))
    · simp only [lookupPage, if_neg hk] at h
      simp only [graphNodes, List.foldr_cons]
      exact Finset.mem_insert_of_mem (Finset.mem_union_right _ (ih h))

theorem pageLinks_le_edgeBound {g : Graph} {v : Node} {pg : Page}
    (h : lookupPage g v = some pg) : pg.links_to_weight.length ≤ graphEdgeBound g := by
  induction g with
  | nil => simp [lookupPage] at h
  | cons pr rest ih =>
    rcases pr with ⟨k, q⟩
    by_cases hk : k = v
    · subst hk
      simp [lookupPage] at h
      subst h
      simp [graphEdgeBound]
    · simp only [lookupPage, if_neg hk] at h
      have := ih h
      simp only [graphEdgeBound, List.map_cons, List.sum_cons] at *
      omega

/-- Termination measure of the traversal: unfinalized graph nodes weighted
by the worst-case push count, plus the frontier size. -/
def traverseMeasure (g : Graph) (V : Finset ℕ) (H : Heap) : ℕ :=
  (graphNodes g \ V).card * (graphEdgeBound g + 1) + H.length

theorem measure_skip {g : Graph} {V : Finset ℕ} {H rest : Heap} {e : HeapEntry}
    (hp : popMin H = some (e, rest)) :
    traverseMeasure g V rest < traverseMeasure g V H := by
  have := popMin_length hp
  unfold traverseMeasure
  omega

theorem measure_settle_nopage {g : Graph} {V : Finset ℕ} {H rest : Heap}
    {e : HeapEntry} (hp : popMin H = some (e, rest)) :
    traverseMeasure g (insert e.link V) rest < traverseMeasure g V H := by
  have hlen := popMin_length hp
  have hcard : (graphNodes g \ insert e.link V).card ≤ (graphNodes g \ V).card := by
    apply Finset.card_le_card
    apply Finset.sdiff_subset_sdiff (le_refl _)
    exact Finset.subset_insert _ _
  unfold traverseMeasure
  have := Nat.mul_le_mul_right (graphEdgeBound g + 1) hcard
  omega

theorem measure_settle_page {g : Graph} {V : Finset ℕ} {H rest : Heap}
    {e : HeapEntry} {pg : Page} (hp : popMin H = some (e, rest))
    (hpg : lookupPage g e.link = some pg) (hnv : e.link ∉ V)
    {pushes : Heap} (hlen : pushes.length ≤ pg.links_to_weight.length) :
    traverseMeasure g (insert e.link V) (rest ++ pushes) < traverseMeasure g V H := by
  have hrest := popMin_length hp
  have hmem : e.link ∈ graphNodes g \ V := by
    rw [Finset.mem_sdiff]
    exact ⟨key_mem_graphNodes hpg, hnv⟩
  have hcard : (graphNodes g \ insert e.link V).card + 1 = (graphNodes g \ V).card := by
    have : graphNodes g \ insert e.link V = (graphNodes g \ V).erase e.link := by
      ext x
      simp only [Finset.mem_sdiff, Finset.mem_insert, Finset.mem_erase]
      tauto
    rw [this]
    exact Finset.card_erase_add_one hmem
  have hpush : pushes.length ≤ graphEdgeBound g :=
    le_trans hlen (pageLinks_le_edgeBound hpg)
  unfold traverseMeasure
  rw [List.length_append]
  have expand : ((graphNodes g \ insert e.link V).card + 1) * (graphEdgeBound g + 1)
      = (graphNodes g \ V).card * (graphEdgeBound g + 1) := by rw [hcard]
  nlinarith [expand]

/-! ## `ClosestPagesIter::next` -/

/-- `max_distance.is_some_and(|max| d > max)`. -/
def exceedsMax (maxD : Option ℚ) (d : ℚ) : Bool :=
  match maxD with
  | none => false
  | some m => decide (m < d)

/-- `max_distance.is_none_or(|max| max >= d)`. -/
def withinMax (maxD : Option ℚ) (d : ℚ) : Bool :=
  match maxD with
  | none => true
  | some m => decide (d ≤ m)

/-- The successor pushes performed when a page is finalized: one heap entry
per link whose tentative distance does not exceed `max_distance` and whose
target is not yet visited (the just-finalized node is already in `V`). -/
def pushesOf (e : HeapEntry) (pg : Page) (V : Finset ℕ) (maxD : Option ℚ) : Heap :=
  pg.links_to_weight.filterMap fun pr =>
    let td := e.dist + pr.2.weight + 1
    if exceedsMax maxD td || decide (pr.1 ∈ V) then none
    else some ⟨td, pr.1, e.path ++ [pr.1]⟩

theorem pushesOf_length (e : HeapEntry) (pg : Page) (V : Finset ℕ) (maxD : Option ℚ) :
    (pushesOf e pg V maxD).length ≤ pg.links_to_weight.length :=
  List.length_filterMap_le _ _

/-- The pushes of the popped entry: empty when its node has no stored page. -/
def pendingPushes (g : Graph) (e : HeapEntry) (V : Finset ℕ) (maxD : Option ℚ) : Heap :=
  match lookupPage g e.link with
  | none => []
  | some pg => pushesOf e pg V maxD

/-- `ClosestPagesIter::next`: pop least-distance entries, skipping already
visited nodes; stop (`None`) if the popped distance exceeds `max_distance`;
otherwise finalize the node, push its unvisited in-range successors, and
yield it when its distance lies within `[min_distance, max_distance]`,
else keep pulling. -/
def iterNext (g : Graph) (minD : ℚ) (maxD : Option ℚ) (V : Finset ℕ) (H : Heap) :
    Option (PathInfo × Finset ℕ × Heap) :=
  match hp : popMin H with
  | none => none
  | some (e, rest) =>
    if hv : e.link ∈ V then iterNext g minD maxD V rest
    else if exceedsMax maxD e.dist then none
    else
      let H2 := rest ++ pendingPushes g e (insert e.link V) maxD
      if decide (minD ≤ e.dist) && withinMax maxD e.dist then
        some (⟨e.dist, e.path⟩, insert e.link V, H2)
      else iterNext g minD maxD (insert e.link V) H2
termination_by traverseMeasure g V H
decreasing_by
  · exact measure_skip hp
  · show traverseMeasure g (insert e.link V) (rest ++ pendingPushes g e (insert e.link V) maxD)
        < traverseMeasure g V H
    unfold pendingPushes
    cases hpg : lookupPage g e.link with
    | none =>
      simpa using measure_settle_nopage hp
    | some pg =>
      exact measure_settle_page hp hpg hv (pushesOf_length _ _ _ _)

theorem measure_settle {g : Graph} {V : Finset ℕ} {H rest : Heap} {e : HeapEntry}
    {maxD : Option ℚ} (hp : popMin H = some (e, rest)) (hv : e.link ∉ V) :
    traverseMeasure g (insert e.link V) (rest ++ pendingPushes g e (insert e.link V) maxD)
      < traverseMeasure g V H := by
  unfold pendingPushes
  cases hpg : lookupPage g e.link with
  | none => simpa using measure_settle_nopage hp
  | some pg => exact measure_settle_page hp hpg hv (pushesOf_length _ _ _ _)

theorem iterNext_unfold_none {g : Graph} {minD : ℚ} {maxD : Option ℚ} {V : Finset ℕ}
    {H : Heap} (hp : popMin H = none) : iterNext g minD maxD V H = none := by
  rw [iterNext.eq_def]
  split
  · rfl
  · rename_i e rest heq
    rw [hp] at heq
    cases heq

theorem iterNext_unfold_skip {g : Graph} {minD : ℚ} {maxD : Option ℚ} {V : Finset ℕ}
    {H rest : Heap} {e : HeapEntry} (hp : popMin H = some (e, rest)) (hv : e.link ∈ V) :
    iterNext g minD maxD V H = iterNext g minD maxD V rest := by
  rw [iterNext.eq_def]
  split
  · rename_i heq
    rw [hp] at heq
    cases heq
  · rename_i e2 rest2 heq
    rw [hp] at heq
    cases heq
    rw [dif_pos hv]

theorem iterNext_unfold_stop {g : Graph} {minD : ℚ} {maxD : Option ℚ} {V : Finset ℕ}
    {H rest : Heap} {e : HeapEntry} (hp : popMin H = some (e, rest)) (hv : e.link ∉ V)
    (hm : exceedsMax maxD e.dist = true) : iterNext g minD maxD V H = none := by
  rw [iterNext.eq_def]
  split
  · rfl
  · rename_i e2 rest2 heq
    rw [hp] at heq
    cases heq
    rw [dif_neg hv, if_pos hm]

theorem iterNext_unfold_yield {g : Graph} {minD : ℚ} {maxD : Option ℚ} {V : Finset ℕ}
    {H rest : Heap} {e : HeapEntry} (hp : popMin H = some (e, rest)) (hv : e.link ∉ V)
    (hm : ¬exceedsMax maxD e.dist = true)
    (hy : (decide (minD ≤ e.dist) && withinMax maxD e.dist) = true) :
    iterNext g minD maxD V H =
      some (⟨e.dist, e.path⟩, insert e.link V,
        rest ++ pendingPushes g e (insert e.link V) maxD) := by
  rw [iterNext.eq_def]
  split
  · rename_i heq
    rw [hp] at heq
    cases heq
  · rename_i e2 rest2 heq
    rw [hp] at heq
    cases heq
    rw [dif_neg hv, if_neg hm]
    simp only [hy, if_true]

theorem iterNext_unfold_noyield {g : Graph} {minD : ℚ} {maxD : Option ℚ} {V : Finset ℕ}
    {H rest : Heap} {e : HeapEntry} (hp : popMin H = some (e, rest)) (hv : e.link ∉ V)
    (hm : ¬exceedsMax maxD e.dist = true)
    (hy : ¬(decide (minD ≤ e.dist) && withinMax maxD e.dist) = true) :
    iterNext g minD maxD V H =
      iterNext g minD maxD (insert e.link V)
        (rest ++ pendingPushes g e (insert e.link V) maxD) := by
  rw [iterNext.eq_def]
  split
  · rename_i heq
    rw [hp] at heq
    cases heq
  · rename_i e2 rest2 heq
    rw [hp] at heq
    cases heq
    rw [dif_neg hv, if_neg hm]
    simp only [Bool.not_eq_true] at hy
    simp [hy]

theorem iterNext_some_decreases {g : Graph} {minD : ℚ} {maxD : Option ℚ}
    {V : Finset ℕ} {H : Heap} {pi : PathInfo} {V2 : Finset ℕ} {H2 : Heap}
    (h : iterNext g minD maxD V H = some (pi, V2, H2)) :
    traverseMeasure g V2 H2 < traverseMeasure g V H := by
  induction V, H using iterNext.induct g minD maxD generalizing pi V2 H2 with
  | case1 V H hp =>
    rw [iterNext_unfold_none hp] at h
    cases h
  | case2 V H e rest hp hv ih =>
    rw [iterNext_unfold_skip hp hv] at h
    exact lt_trans (ih h) (measure_skip hp)
  | case3 V H e rest hp hv hm =>
    rw [iterNext_unfold_stop hp hv hm] at h
    cases h
  | case4 V H e rest hp hv hm hy =>
    rw [iterNext_unfold_yield hp hv hm hy] at h
    cases h
    exact measure_settle hp hv
  | case5 V H e rest hp hv hm hy ih =>
    rename_i ih2
    rw [iterNext_unfold_noyield hp hv hm ih] at h
    exact lt_trans (ih2 h) (measure_settle hp hv)

/-! ## `WikiGraph::find_shortest_path` -/

/-- The consumer loop of `find_shortest_path`: pull finalized nodes from the
lazy traversal (`min_distance = 0.0`, no upper bound) until one whose path
ends at the target appears, or the traversal is exhausted. -/
def findShortestPathAux (g : Graph) (target : Node) (V : Finset ℕ) (H : Heap) :
    Option (List Node) :=
  match hn : iterNext g 0 none V H with
  | none => none
  | some (pi, V2, H2) =>
    if pi.path.getLast? = some target then some pi.path
    else findShortestPathAux g target V2 H2
termination_by traverseMeasure g V H
decreasing_by exact iterNext_some_decreases hn

/-- `WikiGraph::find_shortest_path(first_link, target_link)`. -/
def find_shortest_path (g : Graph) (first_link target_link : Node) :
    Option (List Node) :=
  findShortestPathAux g target_link ∅ [⟨0, first_link, [first_link]⟩]

theorem fspAux_unfold_none {g : Graph} {t : Node} {V : Finset ℕ} {H : Heap}
    (hn : iterNext g 0 none V H = none) : findShortestPathAux g t V H = none := by
  rw [findShortestPathAux.eq_def]
  split
  · rfl
  · rename_i pi V2 H2 heq
    rw [hn] at heq
    cases heq

theorem fspAux_unfold_some {g : Graph} {t : Node} {V : Finset ℕ} {H : Heap}
    {pi : PathInfo} {V2 : Finset ℕ} {H2 : Heap}
    (hn : iterNext g 0 none V H = some (pi, V2, H2)) :
    findShortestPathAux g t V H =
      if pi.path.getLast? = some t then some pi.path
      else findShortestPathAux g t V2 H2 := by
  rw [findShortestPathAux.eq_def]
  split
  · rename_i heq
    rw [hn] at heq
    cases heq
  · rename_i pi2 V2x H2x heq
    rw [hn] at heq
    cases heq
    rfl

/-- C10: `find_shortest_path(s, s)` always yields the one-element path.
The start entry is popped first at distance `0` and immediately yielded. -/
theorem find_shortest_path_self (g : Graph) (s : Node) :
    find_shortest_path g s s = some [s] := by
  unfold find_shortest_path
  have hpop : popMin [(⟨0, s, [s]⟩ : HeapEntry)] = some (⟨0, s, [s]⟩, []) := rfl
  have hnext := @iterNext_unfold_yield g 0 none ∅ [⟨0, s, [s]⟩] [] ⟨0, s, [s]⟩
    hpop (by simp) (by simp [exceedsMax]) (by simp [withinMax])
  rw [fspAux_unfold_some hnext]
  simp

/-! ## Dijkstra invariant for the unbounded traversal (C1) -/

theorem mem_pushesOf {e : HeapEntry} {pg : Page} {V : Finset ℕ} {maxD : Option ℚ}
    {y : HeapEntry} :
    y ∈ pushesOf e pg V maxD ↔ ∃ x li, (x, li) ∈ pg.links_to_weight ∧
      exceedsMax maxD (e.dist + li.weight + 1) = false ∧ x ∉ V ∧
      y = ⟨e.dist + li.weight + 1, x, e.path ++ [x]⟩ := by
  unfold pushesOf
  rw [List.mem_filterMap]
  constructor
  · rintro ⟨⟨x, li⟩, hmem, hf⟩
    dsimp only at hf
    by_cases hc : (exceedsMax maxD (e.dist + li.weight + 1) || decide (x ∈ V)) = true
    · rw [if_pos hc] at hf
      cases hf
    · rw [if_neg hc] at hf
      cases hf
      simp only [Bool.or_eq_true, decide_eq_true_eq, not_or, Bool.not_eq_true] at hc
      exact ⟨x, li, hmem, hc.1, hc.2, rfl⟩
  · rintro ⟨x, li, hmem, hex, hv, rfl⟩
    refine ⟨(x, li), hmem, ?_⟩
    dsimp only
    rw [if_neg]
    simp only [Bool.or_eq_true, decide_eq_true_eq, not_or, Bool.not_eq_true]
    exact ⟨hex, hv⟩

/-- State invariant of the traversal from `s`: every frontier entry carries a
real walk with its cost; the start is finalized or still queued at distance 0;
finalized nodes have attained minimal ghost distances `dv`; every edge leaving
the finalized region is covered by a frontier entry. -/
structure DInv (g : Graph) (s : Node) (V : Finset ℕ) (H : Heap) (dv : ℕ → ℚ) : Prop where
  hpaths : ∀ e ∈ H, Walk g s e.link e.path e.dist
  hstart : s ∈ V ∨ (⟨0, s, [s]⟩ : HeapEntry) ∈ H
  hsettled_path : ∀ v ∈ V, ∃ p, Walk g s v p (dv v)
  hsettled_min : ∀ v ∈ V, ∀ q c, Walk g s v q c → dv v ≤ c
  hfrontier : ∀ v ∈ V, ∀ pg, lookupPage g v = some pg →
      ∀ x li, (x, li) ∈ pg.links_to_weight → x ∉ V →
      ∃ e ∈ H, e.link = x ∧ e.dist ≤ dv v + li.weight + 1

theorem DInv.init (g : Graph) (s : Node) :
    DInv g s ∅ [⟨0, s, [s]⟩] (fun _ => 0) := by
  refine ⟨?_, Or.inr (by simp), by simp, by simp, by simp⟩
  intro e he
  simp only [List.mem_singleton] at he
  subst he
  exact Walk.single s

theorem DInv.cover_from {g : Graph} {s : Node} {V : Finset ℕ} {H : Heap} {dv : ℕ → ℚ}
    (inv : DInv g s V H dv) (hg : NonnegWeights g) {v z : Node} {q : List Node} {c : ℚ}
    (hwalk : Walk g v z q c) (hv : v ∈ V) (hz : z ∉ V) :
    ∃ e ∈ H, e.dist ≤ dv v + c := by
  induction hwalk with
  | single w => exact absurd hv hz
  | cons u pg li hpg hli hw ih =>
    rename_i v0 t0 p0 c0
    by_cases hx : v0 ∈ V
    · obtain ⟨e, he, hle⟩ := ih hx hz
      obtain ⟨p, hp⟩ := inv.hsettled_path u hv
      have hmin := inv.hsettled_min v0 hx _ _ (hp.snoc hpg hli)
      exact ⟨e, he, by linarith⟩
    · obtain ⟨e, he, hlink, hle⟩ := inv.hfrontier u hv pg hpg v0 li hli hx
      have hc0 : 0 ≤ c0 := hw.cost_nonneg hg
      exact ⟨e, he, by linarith⟩

theorem DInv.cover {g : Graph} {s : Node} {V : Finset ℕ} {H : Heap} {dv : ℕ → ℚ}
    (inv : DInv g s V H dv) (hg : NonnegWeights g) {z : Node} {q : List Node} {c : ℚ}
    (hwalk : Walk g s z q c) (hz : z ∉ V) : ∃ e ∈ H, e.dist ≤ c := by
  by_cases hs : s ∈ V
  · obtain ⟨e, he, hle⟩ := inv.cover_from hg hwalk hs hz
    have h0 : dv s ≤ 0 := inv.hsettled_min s hs [s] 0 (Walk.single s)
    exact ⟨e, he, by linarith⟩
  · exact ⟨_, inv.hstart.resolve_left hs, hwalk.cost_nonneg hg⟩

theorem DInv.skip {g : Graph} {s : Node} {V : Finset ℕ} {H rest : Heap} {dv : ℕ → ℚ}
    {e : HeapEntry} (inv : DInv g s V H dv) (hp : popMin H = some (e, rest))
    (hv : e.link ∈ V) : DInv g s V rest dv := by
  have hperm := popMin_perm hp
  refine ⟨?_, ?_, inv.hsettled_path, inv.hsettled_min, ?_⟩
  · intro x hx
    exact inv.hpaths x (popMin_rest_subset hp x hx)
  · rcases inv.hstart with hs | hs
    · exact Or.inl hs
    · rcases List.mem_cons.mp (hperm.mem_iff.mp hs) with heq | hmem
      · exact Or.inl (by rw [← heq] at hv; exact hv)
      · exact Or.inr hmem
  · intro v hvV pg hpg x li hli hx
    obtain ⟨e2, he2, hlink, hle⟩ := inv.hfrontier v hvV pg hpg x li hli hx
    have hne : e2 ≠ e := by
      intro heq
      rw [heq] at hlink
      rw [hlink] at hv
      exact hx hv
    rcases List.mem_cons.mp (hperm.mem_iff.mp he2) with heq | hmem
    · exact absurd heq hne
    · exact ⟨e2, hmem, hlink, hle⟩

/-- Ghost distance map after finalizing the popped entry. -/
def settleDv (dv : ℕ → ℚ) (e : HeapEntry) : ℕ → ℚ :=
  fun n => if n = e.link then e.dist else dv n

theorem DInv.settle {g : Graph} {s : Node} {V : Finset ℕ} {H rest : Heap} {dv : ℕ → ℚ}
    {e : HeapEntry} (inv : DInv g s V H dv) (hg : NonnegWeights g)
    (hp : popMin H = some (e, rest)) (hv : e.link ∉ V) :
    DInv g s (insert e.link V) (rest ++ pendingPushes g e (insert e.link V) none)
      (settleDv dv e) := by
  have hperm := popMin_perm hp
  have hemem : e ∈ H := popMin_mem hp
  have hewalk : Walk g s e.link e.path e.dist := inv.hpaths e hemem
  have hemin : ∀ q c, Walk g s e.link q c → e.dist ≤ c := by
    intro q c hw
    obtain ⟨e2, he2, hle⟩ := inv.cover hg hw hv
    exact le_trans (popMin_min hp e2 he2) hle
  refine ⟨?_, ?_, ?_, ?_, ?_⟩
  · intro x hx
    rcases List.mem_append.mp hx with hx | hx
    · exact inv.hpaths x (popMin_rest_subset hp x hx)
    · unfold pendingPushes at hx
      cases hpg : lookupPage g e.link with
      | none => rw [hpg] at hx; cases hx
      | some pg =>
        rw [hpg] at hx
        obtain ⟨x2, li, hli, _, _, rfl⟩ := mem_pushesOf.mp hx
        exact hewalk.snoc hpg hli
  · rcases inv.hstart with hs | hs
    · exact Or.inl (Finset.mem_insert_of_mem hs)
    · rcases List.mem_cons.mp (hperm.mem_iff.mp hs) with heq | hmem
      · left
        have : e.link = s := by rw [← heq]
        rw [← this]
        exact Finset.mem_insert_self _ _
      · exact Or.inr (List.mem_append.mpr (Or.inl hmem))
  · intro v hvV
    rcases Finset.mem_insert.mp hvV with rfl | hvV
    · exact ⟨e.path, by simpa [settleDv] using hewalk⟩
    · have hne : v ≠ e.link := fun heq => hv (heq ▸ hvV)
      rw [settleDv, if_neg hne]
      exact inv.hsettled_path v hvV
  · intro v hvV q c hw
    rcases Finset.mem_insert.mp hvV with rfl | hvV
    · simpa [settleDv] using hemin q c hw
    · have hne : v ≠ e.link := fun heq => hv (heq ▸ hvV)
      rw [settleDv, if_neg hne]
      exact inv.hsettled_min v hvV q c hw
  · intro v hvV pg hpg x li hli hx
    have hxV : x ∉ V := fun hxV => hx (Finset.mem_insert_of_mem hxV)
    have hxne : x ≠ e.link := fun heq => hx (heq ▸ Finset.mem_insert_self _ _)
    rcases Finset.mem_insert.mp hvV with rfl | hvV
    · refine ⟨⟨e.dist + li.weight + 1, x, e.path ++ [x]⟩, ?_, rfl, ?_⟩
      · apply List.mem_append.mpr
        right
        unfold pendingPushes
        rw [hpg]
        exact mem_pushesOf.mpr ⟨x, li, hli, by simp [exceedsMax], hx, rfl⟩
      · rw [settleDv, if_pos rfl]
    · obtain ⟨e2, he2, hlink, hle⟩ := inv.hfrontier v hvV pg hpg x li hli hxV
      have hne2 : e2 ≠ e := by
        intro heq
        rw [heq] at hlink
        exact hxne hlink.symm
      rcases List.mem_cons.mp (hperm.mem_iff.mp he2) with heq | hmem
      · exact absurd heq hne2
      · have hne : v ≠ e.link := fun heq => hv (heq ▸ hvV)
        rw [settleDv, if_neg hne]
        exact ⟨e2, List.mem_append.mpr (Or.inl hmem), hlink, hle⟩

/-- One pull from the unbounded traversal, under the invariant: exhaustion
means every reachable node is already finalized; a yield finalizes exactly one
new node, whose yielded path is a minimal-cost walk to it. -/
theorem iterNext_run {g : Graph} {s : Node} (hg : NonnegWeights g) :
    ∀ V H dv, DInv g s V H dv →
      ((iterNext g 0 none V H = none → ∀ z q c, Walk g s z q c → z ∈ V) ∧
       (∀ pi V2 H2, iterNext g 0 none V H = some (pi, V2, H2) →
         ∃ (e : HeapEntry) (dv2 : ℕ → ℚ),
           pi = PathInfo.mk e.dist e.path ∧ V2 = insert e.link V ∧
           e.link ∉ V ∧ Walk g s e.link e.path e.dist ∧
           (∀ q c, Walk g s e.link q c → e.dist ≤ c) ∧ DInv g s V2 H2 dv2)) := by
  intro V H
  induction V, H using iterNext.induct g 0 none with
  | case1 V H hp =>
    intro dv inv
    constructor
    · intro _ z q c hw
      by_contra hz
      obtain ⟨e, he, _⟩ := inv.cover hg hw hz
      rw [popMin_nil_iff.mp hp] at he
      cases he
    · intro pi V2 H2 h
      rw [iterNext_unfold_none hp] at h
      cases h
  | case2 V H e rest hp hv ih =>
    intro dv inv
    have inv2 := inv.skip hp hv
    have hrec := ih dv inv2
    constructor
    · intro h
      rw [iterNext_unfold_skip hp hv] at h
      exact hrec.1 h
    · intro pi V2 H2 h
      rw [iterNext_unfold_skip hp hv] at h
      exact hrec.2 pi V2 H2 h
  | case3 V H e rest hp hv hm =>
    intro dv inv
    exact absurd hm (by simp [exceedsMax])
  | case4 V H e rest hp hv hm hy =>
    intro dv inv
    constructor
    · intro h
      rw [iterNext_unfold_yield hp hv hm hy] at h
      cases h
    · intro pi V2 H2 h
      rw [iterNext_unfold_yield hp hv hm hy] at h
      cases h
      have hewalk := inv.hpaths e (popMin_mem hp)
      have hemin : ∀ q c, Walk g s e.link q c → e.dist ≤ c := by
        intro q c hw
        obtain ⟨e2, he2, hle⟩ := inv.cover hg hw hv
        exact le_trans (popMin_min hp e2 he2) hle
      exact ⟨e, settleDv dv e, rfl, rfl, hv, hewalk, hemin, inv.settle hg hp hv⟩
  | case5 V H e rest hp hv hm hy ih =>
    rename_i ih2
    intro dv inv
    exfalso
    have h0 : 0 ≤ e.dist := (inv.hpaths e (popMin_mem hp)).cost_nonneg hg
    apply ih
    simp [withinMax, h0]

/-- Correctness of the shortest-path consumer loop from any invariant state. -/
theorem fspAux_correct {g : Graph} {s t : Node} (hg : NonnegWeights g) :
    ∀ V H, ∀ dv, DInv g s V H dv → t ∉ V →
      ((∀ p, findShortestPathAux g t V H = some p →
          ∃ c, Walk g s t p c ∧ ∀ q c2, Walk g s t q c2 → c ≤ c2) ∧
       (findShortestPathAux g t V H = none → ¬∃ p c, Walk g s t p c)) := by
  intro V H
  induction V, H using findShortestPathAux.induct g t with
  | case1 V H hn =>
    intro dv inv ht
    constructor
    · intro p h
      rw [fspAux_unfold_none hn] at h
      cases h
    · rintro _ ⟨p, c, hw⟩
      exact ht ((iterNext_run hg V H dv inv).1 hn t p c hw)
  | case2 V H pi V2 H2 hn hlast =>
    intro dv inv ht
    obtain ⟨e, dv2, hpi, hV2, hnv, hwalk, hmin, inv2⟩ :=
      (iterNext_run hg V H dv inv).2 pi V2 H2 hn
    subst hpi
    have hlinkt : e.link = t := by
      have := hwalk.last_eq
      dsimp only at hlast
      rw [hlast] at this
      exact ((Option.some.injEq _ _ ▸ this :) : t = e.link).symm
    constructor
    · intro p h
      rw [fspAux_unfold_some hn, if_pos hlast] at h
      cases h
      subst hlinkt
      exact ⟨e.dist, hwalk, fun q c2 hw2 => hmin q c2 hw2⟩
    · intro h
      rw [fspAux_unfold_some hn, if_pos hlast] at h
      cases h
  | case3 V H pi V2 H2 hn hlast ih =>
    intro dv inv ht
    obtain ⟨e, dv2, hpi, hV2, hnv, hwalk, hmin, inv2⟩ :=
      (iterNext_run hg V H dv inv).2 pi V2 H2 hn
    have hlinkne : e.link ≠ t := by
      intro heq
      apply hlast
      subst hpi
      rw [hwalk.last_eq, heq]
    have ht2 : t ∉ V2 := by
      rw [hV2]
      intro hmem
      rcases Finset.mem_insert.mp hmem with heq | hmem2
      · exact hlinkne heq.symm
      · exact ht hmem2
    have hrec := ih dv2 inv2 ht2
    constructor
    · intro p h
      rw [fspAux_unfold_some hn, if_neg hlast] at h
      exact hrec.1 p h
    · intro h
      rw [fspAux_unfold_some hn, if_neg hlast] at h
      exact hrec.2 h

/-- C1: for every graph store, start key `s` and target key `t`,
`find_shortest_path(s, t)` returns a path from `s` to `t` whose summed cost
(per-edge cost = link weight + 1) is minimal over all paths from `s` to `t`,
and returns none exactly when `t` is unreachable from `s` in the stored
graph. Weights are assumed nonnegative, as every weight the program stores
lies in (0, 1]. -/
theorem claim_C1_find_shortest_path_optimal (g : Graph) (s t : Node)
    (hg : NonnegWeights g) :
    (∀ p, find_shortest_path g s t = some p →
       ∃ c, Walk g s t p c ∧ ∀ q c2, Walk g s t q c2 → c ≤ c2) ∧
    (find_shortest_path g s t = none ↔
       ¬∃ (p : List Node) (c : ℚ), Walk g s t p c) := by
  have base := fspAux_correct (s := s) (t := t) hg ∅ [⟨0, s, [s]⟩] (fun _ => 0)
    (DInv.init g s) (by simp)
  unfold find_shortest_path
  refine ⟨base.1, base.2, ?_⟩
  intro hn
  cases hfsp : findShortestPathAux g t ∅ [⟨0, s, [s]⟩] with
  | none => rfl
  | some p =>
    obtain ⟨c, hw, _⟩ := base.1 p hfsp
    exact absurd ⟨p, c, hw⟩ hn

/-- Concrete two-node graph store used to witness C1. -/
def g1ex : Graph := [(0, ⟨[(1, ⟨0, (1 : ℚ)⟩)]⟩)]

theorem claim_C1_find_shortest_path_optimal_witness :
    NonnegWeights g1ex ∧
    ((∀ p, find_shortest_path g1ex 0 1 = some p →
        ∃ c, Walk g1ex 0 1 p c ∧ ∀ q c2, Walk g1ex 0 1 q c2 → c ≤ c2) ∧
     (find_shortest_path g1ex 0 1 = none ↔
        ¬∃ (p : List Node) (c : ℚ), Walk g1ex 0 1 p c)) :=
  ⟨by decide, claim_C1_find_shortest_path_optimal g1ex 0 1 (by decide)⟩

/-- C10: for every graph store and start key `s`, `find_shortest_path(s, s)`
returns the one-element path `[s]`, even when `s` has no Page in the store:
the start is finalized and yielded at distance 0 before any successor. -/
theorem claim_C10_find_shortest_path_self (g : Graph) (s : Node) :
    find_shortest_path g s s = some [s] :=
  find_shortest_path_self g s

/-! ## `WikiGraph::get_close_titles`

The bounded traversal used by the closest-titles query. It is a separate
loop in the source: candidates are recorded in `link_to_path_info` at edge
relaxation time (`entry(link).or_insert`), and the loop runs the frontier to
exhaustion. The model additionally returns a ghost log of the expanded
(popped, unvisited, page-found) nodes with their popped distances, which the
Rust loop performs but does not return; it is observation only. -/

/-- Association-list lookup for `link_to_path_info`. -/
def lookupInfo : List (Node × PathInfo) → Node → Option PathInfo
  | [], _ => none
  | (k, pi) :: rest, v => if k = v then some pi else lookupInfo rest v

/-- `link_to_path_info.entry(link).or_insert(path_info)`. -/
def orInsert (info : List (Node × PathInfo)) (k : Node) (v : PathInfo) :
    List (Node × PathInfo) :=
  match lookupInfo info k with
  | some _ => info
  | none => info ++ [(k, v)]

/-- Accumulator of one relaxation round: the candidate map and the pushes. -/
structure RelaxAcc where
  info : List (Node × PathInfo)
  pushes : Heap

/-- One edge relaxation of `get_close_titles`: skip targets beyond
`max_distance` or already visited; record a candidate when the tentative
distance falls within `[min_distance, max_distance]` (first record wins);
push the target. -/
def relaxStep (minD maxD : ℚ) (e : HeapEntry) (V : Finset ℕ)
    (acc : RelaxAcc) (pr : Node × LinkInfo) : RelaxAcc :=
  let td := e.dist + pr.2.weight + 1
  if maxD < td then acc
  else if pr.1 ∈ V then acc
  else
    let np := e.path ++ [pr.1]
    let info2 := if minD ≤ td ∧ td ≤ maxD then orInsert acc.info pr.1 ⟨td, np⟩ else acc.info
    ⟨info2, acc.pushes ++ [⟨td, pr.1, np⟩]⟩

/-- All relaxations of one finalized page, in stored order. -/
def relaxAll (minD maxD : ℚ) (e : HeapEntry) (V : Finset ℕ)
    (info : List (Node × PathInfo)) (links : List (Node × LinkInfo)) : RelaxAcc :=
  links.foldl (relaxStep minD maxD e V) ⟨info, []⟩

theorem relaxStep_pushes_le (minD maxD : ℚ) (e : HeapEntry) (V : Finset ℕ)
    (acc : RelaxAcc) (pr : Node × LinkInfo) :
    (relaxStep minD maxD e V acc pr).pushes.length ≤ acc.pushes.length + 1 := by
  unfold relaxStep
  dsimp only
  split
  · omega
  · split
    · omega
    · simp

theorem relaxAll_pushes_le (minD maxD : ℚ) (e : HeapEntry) (V : Finset ℕ)
    (links : List (Node × LinkInfo)) :
    ∀ acc : RelaxAcc,
      (links.foldl (relaxStep minD maxD e V) acc).pushes.length ≤
        acc.pushes.length + links.length := by
  induction links with
  | nil => intro acc; simp
  | cons pr rest ih =>
    intro acc
    have h1 := relaxStep_pushes_le minD maxD e V acc pr
    have h2 := ih (relaxStep minD maxD e V acc pr)
    simp only [List.foldl_cons, List.length_cons]
    omega

theorem relaxAll_pushes_length (minD maxD : ℚ) (e : HeapEntry) (V : Finset ℕ)
    (info : List (Node × PathInfo)) (links : List (Node × LinkInfo)) :
    (relaxAll minD maxD e V info links).pushes.length ≤ links.length := by
  have := relaxAll_pushes_le minD maxD e V links ⟨info, []⟩
  simpa [relaxAll] using this

/-- The candidate-collection loop of `get_close_titles`. -/
def ctLoop (g : Graph) (minD maxD : ℚ) (info : List (Node × PathInfo))
    (V : Finset ℕ) (H : Heap) (log : List (ℚ × Node)) :
    List (Node × PathInfo) × List (ℚ × Node) :=
  match hp : popMin H with
  | none => (info, log)
  | some (e, rest) =>
    if hv : e.link ∈ V then ctLoop g minD maxD info V rest log
    else
      match hpg : lookupPage g e.link with
      | none => ctLoop g minD maxD info (insert e.link V) rest log
      | some pg =>
        let acc := relaxAll minD maxD e (insert e.link V) info pg.links_to_weight
        ctLoop g minD maxD acc.info (insert e.link V) (rest ++ acc.pushes)
          (log ++ [(e.dist, e.link)])
termination_by traverseMeasure g V H
decreasing_by
  · exact measure_skip hp
  · exact measure_settle_nopage hp
  · exact measure_settle_page hp hpg hv (relaxAll_pushes_length _ _ _ _ _ _)

/-- The candidate set (and ghost expansion log) from which
`get_close_titles(first_link, count, min_distance, max_distance)` draws its
uniform random sample of `count` elements. -/
def get_close_titles_candidates (g : Graph) (first_link : Node)
    (minD maxD : ℚ) : List (Node × PathInfo) × List (ℚ × Node) :=
  ctLoop g minD maxD [] ∅ [⟨0, first_link, [first_link]⟩] []

theorem ctLoop_unfold_none {g : Graph} {minD maxD : ℚ} {info : List (Node × PathInfo)}
    {V : Finset ℕ} {H : Heap} {log : List (ℚ × Node)} (hp : popMin H = none) :
    ctLoop g minD maxD info V H log = (info, log) := by
  rw [ctLoop.eq_def]
  split
  · rfl
  · rename_i e rest heq
    rw [hp] at heq
    cases heq

theorem ctLoop_unfold_skip {g : Graph} {minD maxD : ℚ} {info : List (Node × PathInfo)}
    {V : Finset ℕ} {H rest : Heap} {log : List (ℚ × Node)} {e : HeapEntry}
    (hp : popMin H = some (e, rest)) (hv : e.link ∈ V) :
    ctLoop g minD maxD info V H log = ctLoop g minD maxD info V rest log := by
  rw [ctLoop.eq_def]
  split
  · rename_i heq
    rw [hp] at heq
    cases heq
  · rename_i e2 rest2 heq
    rw [hp] at heq
    cases heq
    rw [dif_pos hv]

theorem ctLoop_unfold_nopage {g : Graph} {minD maxD : ℚ} {info : List (Node × PathInfo)}
    {V : Finset ℕ} {H rest : Heap} {log : List (ℚ × Node)} {e : HeapEntry}
    (hp : popMin H = some (e, rest)) (hv : e.link ∉ V)
    (hpg : lookupPage g e.link = none) :
    ctLoop g minD maxD info V H log =
      ctLoop g minD maxD info (insert e.link V) rest log := by
  rw [ctLoop.eq_def]
  split
  · rename_i heq
    rw [hp] at heq
    cases heq
  · rename_i e2 rest2 heq
    rw [hp] at heq
    cases heq
    rw [dif_neg hv]
    split
    · rfl
    · rename_i pg heq2
      rw [hpg] at heq2
      cases heq2

theorem ctLoop_unfold_page {g : Graph} {minD maxD : ℚ} {info : List (Node × PathInfo)}
    {V : Finset ℕ} {H rest : Heap} {log : List (ℚ × Node)} {e : HeapEntry} {pg : Page}
    (hp : popMin H = some (e, rest)) (hv : e.link ∉ V)
    (hpg : lookupPage g e.link = some pg) :
    ctLoop g minD maxD info V H log =
      ctLoop g minD maxD
        (relaxAll minD maxD e (insert e.link V) info pg.links_to_weight).info
        (insert e.link V)
        (rest ++ (relaxAll minD maxD e (insert e.link V) info pg.links_to_weight).pushes)
        (log ++ [(e.dist, e.link)]) := by
  rw [ctLoop.eq_def]
  split
  · rename_i heq
    rw [hp] at heq
    cases heq
  · rename_i e2 rest2 heq
    rw [hp] at heq
    cases heq
    rw [dif_neg hv]
    split
    · rename_i heq2
      rw [hpg] at heq2
      cases heq2
    · rename_i pg2 heq2
      rw [hpg] at heq2
      cases heq2
      rfl

/-- Candidate soundness predicate for C7: a recorded candidate's distance is
within the query window and is the exact cost of its recorded path. -/
def CandOK (g : Graph) (s : Node) (minD maxD : ℚ) (pr : Node × PathInfo) : Prop :=
  minD ≤ pr.2.distance ∧ pr.2.distance ≤ maxD ∧ Walk g s pr.1 pr.2.path pr.2.distance

theorem mem_orInsert {info : List (Node × PathInfo)} {k : Node} {v : PathInfo}
    {y : Node × PathInfo} (hy : y ∈ orInsert info k v) : y ∈ info ∨ y = (k, v) := by
  unfold orInsert at hy
  cases hl : lookupInfo info k with
  | none =>
    rw [hl] at hy
    rcases List.mem_append.mp hy with h | h
    · exact Or.inl h
    · simp only [List.mem_singleton] at h
      exact Or.inr h
  | some _ =>
    rw [hl] at hy
    exact Or.inl hy

theorem relaxFold_sound {g : Graph} {s : Node} {minD maxD : ℚ} {e : HeapEntry}
    (W : Finset ℕ) {pg : Page} (hpg : lookupPage g e.link = some pg)
    (hwalk : Walk g s e.link e.path e.dist) :
    ∀ links : List (Node × LinkInfo), (∀ pr ∈ links, pr ∈ pg.links_to_weight) →
    ∀ acc : RelaxAcc, (∀ pr ∈ acc.info, CandOK g s minD maxD pr) →
      (∀ x ∈ acc.pushes, Walk g s x.link x.path x.dist) →
      (∀ pr ∈ (links.foldl (relaxStep minD maxD e W) acc).info,
        CandOK g s minD maxD pr) ∧
      (∀ x ∈ (links.foldl (relaxStep minD maxD e W) acc).pushes,
        Walk g s x.link x.path x.dist) := by
  intro links
  induction links with
  | nil => exact fun _ acc h1 h2 => ⟨h1, h2⟩
  | cons pr rest ih =>
    intro hsub acc h1 h2
    have hedge : pr ∈ pg.links_to_weight := hsub pr (List.mem_cons_self _ _)
    have hsnoc : Walk g s pr.1 (e.path ++ [pr.1]) (e.dist + pr.2.weight + 1) :=
      hwalk.snoc hpg (by rcases pr with ⟨x, li⟩; exact hedge)
    rw [List.foldl_cons]
    apply ih (fun q hq => hsub q (List.mem_cons_of_mem _ hq))
    · intro q hq
      unfold relaxStep at hq
      dsimp only at hq
      split at hq
      · exact h1 q hq
      · split at hq
        · exact h1 q hq
        · dsimp only at hq
          split at hq
          · rename_i hgate
            rcases mem_orInsert hq with hq | rfl
            · exact h1 q hq
            · exact ⟨hgate.1, hgate.2, hsnoc⟩
          · exact h1 q hq
    · intro x hx
      unfold relaxStep at hx
      dsimp only at hx
      split at hx
      · exact h2 x hx
      · split at hx
        · exact h2 x hx
        · dsimp only at hx
          rcases List.mem_append.mp hx with hx | hx
          · exact h2 x hx
          · simp only [List.mem_singleton] at hx
            subst hx
            exact hsnoc

/-- Loop invariant for C7 soundness: every recorded candidate is in-window
and carries a genuine costed walk from the start. -/
theorem ctLoop_sound {g : Graph} {s : Node} {minD maxD : ℚ} :
    ∀ (info : List (Node × PathInfo)) (V : Finset ℕ) (H : Heap) (log : List (ℚ × Node)),
      (∀ x ∈ H, Walk g s x.link x.path x.dist) →
      (∀ pr ∈ info, CandOK g s minD maxD pr) →
      ∀ pr ∈ (ctLoop g minD maxD info V H log).1, CandOK g s minD maxD pr := by
  intro info V H log
  induction info, V, H, log using ctLoop.induct g minD maxD with
  | case1 info V H log hp =>
    intro hH hinfo
    rw [ctLoop_unfold_none hp]
    exact hinfo
  | case2 info V H log e rest hp hv ih =>
    intro hH hinfo
    rw [ctLoop_unfold_skip hp hv]
    exact ih (fun x hx => hH x (popMin_rest_subset hp x hx)) hinfo
  | case3 info V H log e rest hp hv hpg ih =>
    intro hH hinfo
    rw [ctLoop_unfold_nopage hp hv hpg]
    exact ih (fun x hx => hH x (popMin_rest_subset hp x hx)) hinfo
  | case4 info V H log e rest hp hv pg hpg ih =>
    rename_i ih2
    intro hH hinfo
    rw [ctLoop_unfold_page hp hv hpg]
    have hwalk := hH e (popMin_mem hp)
    have hfold := relaxFold_sound (insert e.link V) hpg hwalk
      pg.links_to_weight (fun q hq => hq) ⟨info, []⟩ hinfo
      (by intro x hx; cases hx)
    apply ih2
    · intro x hx
      rcases List.mem_append.mp hx with hx | hx
      · exact hH x (popMin_rest_subset hp x hx)
      · exact hfold.2 x hx
    · exact hfold.1

theorem relaxFold_bounded (minD maxD : ℚ) (e : HeapEntry) (W : Finset ℕ) :
    ∀ links : List (Node × LinkInfo), ∀ acc : RelaxAcc,
      (∀ pr ∈ acc.info, pr.2.distance ≤ maxD) → (∀ x ∈ acc.pushes, x.dist ≤ maxD) →
      (∀ pr ∈ (links.foldl (relaxStep minD maxD e W) acc).info, pr.2.distance ≤ maxD) ∧
      (∀ x ∈ (links.foldl (relaxStep minD maxD e W) acc).pushes, x.dist ≤ maxD) := by
  intro links
  induction links with
  | nil => exact fun acc h1 h2 => ⟨h1, h2⟩
  | cons pr rest ih =>
    intro acc h1 h2
    rw [List.foldl_cons]
    apply ih
    · intro q hq
      unfold relaxStep at hq
      dsimp only at hq
      split at hq
      · exact h1 q hq
      · split at hq
        · exact h1 q hq
        · dsimp only at hq
          split at hq
          · rename_i hgate
            rcases mem_orInsert hq with hq | rfl
            · exact h1 q hq
            · exact hgate.2
          · exact h1 q hq
    · intro x hx
      unfold relaxStep at hx
      dsimp only at hx
      split at hx
      · exact h2 x hx
      · split at hx
        · exact h2 x hx
        · dsimp only at hx
          rcases List.mem_append.mp hx with hx | hx
          · exact h2 x hx
          · simp only [List.mem_singleton] at hx
            subst hx
            rename_i hlt hmem
            exact le_of_not_lt hlt

/-- Loop invariant for C8: with every frontier distance within the bound,
all recorded candidates and all expanded nodes stay within the bound. -/
theorem ctLoop_bounded {g : Graph} {minD maxD : ℚ} :
    ∀ (info : List (Node × PathInfo)) (V : Finset ℕ) (H : Heap) (log : List (ℚ × Node)),
      (∀ x ∈ H, x.dist ≤ maxD) →
      (∀ pr ∈ info, pr.2.distance ≤ maxD) →
      (∀ q ∈ log, q.1 ≤ maxD) →
      (∀ pr ∈ (ctLoop g minD maxD info V H log).1, pr.2.distance ≤ maxD) ∧
      (∀ q ∈ (ctLoop g minD maxD info V H log).2, q.1 ≤ maxD) := by
  intro info V H log
  induction info, V, H, log using ctLoop.induct g minD maxD with
  | case1 info V H log hp =>
    intro hH hinfo hlog
    rw [ctLoop_unfold_none hp]
    exact ⟨hinfo, hlog⟩
  | case2 info V H log e rest hp hv ih =>
    intro hH hinfo hlog
    rw [ctLoop_unfold_skip hp hv]
    exact ih (fun x hx => hH x (popMin_rest_subset hp x hx)) hinfo hlog
  | case3 info V H log e rest hp hv hpg ih =>
    intro hH hinfo hlog
    rw [ctLoop_unfold_nopage hp hv hpg]
    exact ih (fun x hx => hH x (popMin_rest_subset hp x hx)) hinfo hlog
  | case4 info V H log e rest hp hv pg hpg ih =>
    rename_i ih2
    intro hH hinfo hlog
    rw [ctLoop_unfold_page hp hv hpg]
    have hfold := relaxFold_bounded minD maxD e (insert e.link V)
      pg.links_to_weight ⟨info, []⟩ hinfo
      (by intro x hx; cases hx)
    apply ih2
    · intro x hx
      rcases List.mem_append.mp hx with hx | hx
      · exact hH x (popMin_rest_subset hp x hx)
      · exact hfold.2 x hx
    · exact hfold.1
    · intro q hq
      rcases List.mem_append.mp hq with hq | hq
      · exact hlog q hq
      · simp only [List.mem_singleton] at hq
        subst hq
        exact hH e (popMin_mem hp)

/-- C7 (amended): every candidate from which the closest-titles query samples
has its recorded distance within the closed window
`[min_distance, max_distance]`, and that distance is the exact summed cost of
its recorded path, a genuine path from the start to the candidate in the
stored graph. The recorded distance is the first in-window tentative
relaxation distance, which need not be the node's minimal distance. -/
theorem claim_C7_close_titles_candidates_sound (g : Graph) (s : Node)
    (minD maxD : ℚ) (v : Node) (pi : PathInfo)
    (hmem : (v, pi) ∈ (get_close_titles_candidates g s minD maxD).1) :
    minD ≤ pi.distance ∧ pi.distance ≤ maxD ∧ Walk g s v pi.path pi.distance := by
  have hinit : ∀ x ∈ [(⟨0, s, [s]⟩ : HeapEntry)], Walk g s x.link x.path x.dist := by
    intro x hx
    simp only [List.mem_singleton] at hx
    subst hx
    exact Walk.single s
  exact ctLoop_sound [] ∅ [⟨0, s, [s]⟩] [] hinit (by intro pr hpr; cases hpr)
    (v, pi) hmem

/-- C8 (amended): provided `0 ≤ max_distance = D` — which is forced because
the start itself is always expanded at cumulative distance 0 — the
closest-titles traversal never records a candidate whose distance exceeds
`D` and never expands (pops and relaxes the successors of) a node whose
cumulative distance exceeds `D`. -/
theorem claim_C8_close_titles_bounded (g : Graph) (s : Node) (minD maxD : ℚ)
    (hmax : 0 ≤ maxD) :
    (∀ pr ∈ (get_close_titles_candidates g s minD maxD).1, pr.2.distance ≤ maxD) ∧
    (∀ q ∈ (get_close_titles_candidates g s minD maxD).2, q.1 ≤ maxD) := by
  apply ctLoop_bounded
  · intro x hx
    simp only [List.mem_singleton] at hx
    subst hx
    exact hmax
  · intro pr hpr
    cases hpr
  · intro q hq
    cases hq

/-- Two-node graph store (one link of weight 1) for witnesses. -/
def g2ex : Graph := [(0, ⟨[(1, ⟨0, 1⟩)]⟩)]

/-- Diamond graph store: node 3 is first relaxed from node 1 at tentative
distance 7/2, but its minimal distance is 31/10 through node 2. -/
def g3ex : Graph :=
  [(0, ⟨[(1, ⟨0, 1/2⟩), (2, ⟨1, 1⟩)]⟩),
   (1, ⟨[(3, ⟨0, 1⟩)]⟩),
   (2, ⟨[(3, ⟨0, 1/10⟩)]⟩)]

theorem g2ex_candidates_eval :
    get_close_titles_candidates g2ex 0 0 10 = ([(1, ⟨2, [0, 1]⟩)], [(0, 0)]) := by
  unfold get_close_titles_candidates
  rw [@ctLoop_unfold_page g2ex 0 10 [] ∅ [⟨0, 0, [0]⟩] [] []
    ⟨0, 0, [0]⟩ ⟨[(1, ⟨0, 1⟩)]⟩ rfl (by simp) rfl]
  have hr : relaxAll 0 10 ⟨0, 0, [0]⟩ (insert 0 ∅) [] [(1, ⟨0, 1⟩)] =
      ⟨[(1, ⟨2, [0, 1]⟩)], [⟨2, 1, [0, 1]⟩]⟩ := by
    norm_num [relaxAll, relaxStep, orInsert, lookupInfo]
  rw [hr]
  simp only [List.nil_append]
  rw [@ctLoop_unfold_nopage g2ex 0 10 [(1, ⟨2, [0, 1]⟩)] (insert 0 ∅)
    [⟨2, 1, [0, 1]⟩] [] [(0, 0)] ⟨2, 1, [0, 1]⟩ rfl (by decide) rfl]
  rw [@ctLoop_unfold_none g2ex 0 10 [(1, ⟨2, [0, 1]⟩)]
    (insert 1 (insert 0 ∅)) [] [(0, 0)] rfl]

theorem g2ex_candidates_neg_eval :
    get_close_titles_candidates g2ex 0 (-1) (-1) = ([], [(0, 0)]) := by
  unfold get_close_titles_candidates
  rw [@ctLoop_unfold_page g2ex (-1) (-1) [] ∅ [⟨0, 0, [0]⟩] [] []
    ⟨0, 0, [0]⟩ ⟨[(1, ⟨0, 1⟩)]⟩ rfl (by simp) rfl]
  have hr : relaxAll (-1) (-1) ⟨0, 0, [0]⟩ (insert 0 ∅) [] [(1, ⟨0, 1⟩)] =
      ⟨[], []⟩ := by
    norm_num [relaxAll, relaxStep, orInsert, lookupInfo]
  rw [hr]
  simp only [List.nil_append, List.append_nil]
  rw [@ctLoop_unfold_none g2ex (-1) (-1) [] (insert 0 ∅) [] [(0, 0)] rfl]

theorem g3ex_candidates_eval :
    get_close_titles_candidates g3ex 0 0 10 =
      ([(1, ⟨3/2, [0, 1]⟩), (2, ⟨2, [0, 2]⟩), (3, ⟨7/2, [0, 1, 3]⟩)],
       [(0, 0), (3/2, 1), (2, 2)]) := by
  unfold get_close_titles_candidates
  rw [@ctLoop_unfold_page g3ex 0 10 [] ∅ [⟨0, 0, [0]⟩] [] []
    ⟨0, 0, [0]⟩ ⟨[(1, ⟨0, 1/2⟩), (2, ⟨1, 1⟩)]⟩ rfl (by simp) rfl]
  have hr1 : relaxAll 0 10 ⟨0, 0, [0]⟩ (insert 0 ∅) []
      [(1, ⟨0, 1/2⟩), (2, ⟨1, 1⟩)] =
      ⟨[(1, ⟨3/2, [0, 1]⟩), (2, ⟨2, [0, 2]⟩)],
       [⟨3/2, 1, [0, 1]⟩, ⟨2, 2, [0, 2]⟩]⟩ := by
    norm_num [relaxAll, relaxStep, orInsert, lookupInfo]
  rw [hr1]
  show ctLoop g3ex 0 10 [(1, ⟨3/2, [0, 1]⟩), (2, ⟨2, [0, 2]⟩)] (insert 0 ∅)
    [⟨3/2, 1, [0, 1]⟩, ⟨2, 2, [0, 2]⟩] [(0, 0)] = _
  rw [@ctLoop_unfold_page g3ex 0 10 [(1, ⟨3/2, [0, 1]⟩), (2, ⟨2, [0, 2]⟩)]
    (insert 0 ∅) [⟨3/2, 1, [0, 1]⟩, ⟨2, 2, [0, 2]⟩] [⟨2, 2, [0, 2]⟩] [(0, 0)]
    ⟨3/2, 1, [0, 1]⟩ ⟨[(3, ⟨0, 1⟩)]⟩ (by norm_num [popMin]) (by decide) rfl]
  have hr2 : relaxAll 0 10 ⟨3/2, 1, [0, 1]⟩ (insert 1 (insert 0 ∅))
      [(1, ⟨3/2, [0, 1]⟩), (2, ⟨2, [0, 2]⟩)] [(3, ⟨0, 1⟩)] =
      ⟨[(1, ⟨3/2, [0, 1]⟩), (2, ⟨2, [0, 2]⟩), (3, ⟨7/2, [0, 1, 3]⟩)],
       [⟨7/2, 3, [0, 1, 3]⟩]⟩ := by
    norm_num [relaxAll, relaxStep, orInsert, lookupInfo]
  rw [hr2]
  show ctLoop g3ex 0 10
    [(1, ⟨3/2, [0, 1]⟩), (2, ⟨2, [0, 2]⟩), (3, ⟨7/2, [0, 1, 3]⟩)]
    (insert 1 (insert 0 ∅)) [⟨2, 2, [0, 2]⟩, ⟨7/2, 3, [0, 1, 3]⟩]
    [(0, 0), (3/2, 1)] = _
  rw [@ctLoop_unfold_page g3ex 0 10
    [(1, ⟨3/2, [0, 1]⟩), (2, ⟨2, [0, 2]⟩), (3, ⟨7/2, [0, 1, 3]⟩)]
    (insert 1 (insert 0 ∅)) [⟨2, 2, [0, 2]⟩, ⟨7/2, 3, [0, 1, 3]⟩]
    [⟨7/2, 3, [0, 1, 3]⟩] [(0, 0), (3/2, 1)]
    ⟨2, 2, [0, 2]⟩ ⟨[(3, ⟨0, 1/10⟩)]⟩ (by norm_num [popMin]) (by decide) rfl]
  have hr3 : relaxAll 0 10 ⟨2, 2, [0, 2]⟩ (insert 2 (insert 1 (insert 0 ∅)))
      [(1, ⟨3/2, [0, 1]⟩), (2, ⟨2, [0, 2]⟩), (3, ⟨7/2, [0, 1, 3]⟩)]
      [(3, ⟨0, 1/10⟩)] =
      ⟨[(1, ⟨3/2, [0, 1]⟩), (2, ⟨2, [0, 2]⟩), (3, ⟨7/2, [0, 1, 3]⟩)],
       [⟨31/10, 3, [0, 2, 3]⟩]⟩ := by
    norm_num [relaxAll, relaxStep, orInsert, lookupInfo]
  rw [hr3]
  show ctLoop g3ex 0 10
    [(1, ⟨3/2, [0, 1]⟩), (2, ⟨2, [0, 2]⟩), (3, ⟨7/2, [0, 1, 3]⟩)]
    (insert 2 (insert 1 (insert 0 ∅)))
    [⟨7/2, 3, [0, 1, 3]⟩, ⟨31/10, 3, [0, 2, 3]⟩]
    [(0, 0), (3/2, 1), (2, 2)] = _
  rw [@ctLoop_unfold_nopage g3ex 0 10
    [(1, ⟨3/2, [0, 1]⟩), (2, ⟨2, [0, 2]⟩), (3, ⟨7/2, [0, 1, 3]⟩)]
    (insert 2 (insert 1 (insert 0 ∅)))
    [⟨7/2, 3, [0, 1, 3]⟩, ⟨31/10, 3, [0, 2, 3]⟩] [⟨7/2, 3, [0, 1, 3]⟩]
    [(0, 0), (3/2, 1), (2, 2)] ⟨31/10, 3, [0, 2, 3]⟩
    (by norm_num [popMin]) (by decide) rfl]
  rw [@ctLoop_unfold_skip g3ex 0 10
    [(1, ⟨3/2, [0, 1]⟩), (2, ⟨2, [0, 2]⟩), (3, ⟨7/2, [0, 1, 3]⟩)]
    (insert 3 (insert 2 (insert 1 (insert 0 ∅)))) [⟨7/2, 3, [0, 1, 3]⟩] []
    [(0, 0), (3/2, 1), (2, 2)] ⟨7/2, 3, [0, 1, 3]⟩ rfl (by decide)]
  rw [@ctLoop_unfold_none g3ex 0 10
    [(1, ⟨3/2, [0, 1]⟩), (2, ⟨2, [0, 2]⟩), (3, ⟨7/2, [0, 1, 3]⟩)]
    (insert 3 (insert 2 (insert 1 (insert 0 ∅)))) []
    [(0, 0), (3/2, 1), (2, 2)] rfl]

/-- C7 counterexample: in the diamond graph the candidate 3 is recorded with
distance 7/2 (the first in-window relaxation, via node 1), yet a path of
cost 31/10 to node 3 exists (via node 2), so the recorded distance and path
are not minimal. -/
theorem claim_C7_counterexample :
    lookupInfo (get_close_titles_candidates g3ex 0 0 10).1 3 =
      some ⟨7/2, [0, 1, 3]⟩ ∧
    Walk g3ex 0 3 [0, 2, 3] (31/10) ∧ (31/10 : ℚ) < 7/2 := by
  refine ⟨?_, ?_, by norm_num⟩
  · rw [g3ex_candidates_eval]
    rfl
  · have hw2 : Walk g3ex 2 3 [2, 3] ((1/10 : ℚ) + 1 + 0) :=
      Walk.cons 2 ⟨[(3, ⟨0, 1/10⟩)]⟩ ⟨0, 1/10⟩ rfl (by simp) (Walk.single 3)
    have hw : Walk g3ex 0 3 [0, 2, 3] ((1 : ℚ) + 1 + (1/10 + 1 + 0)) :=
      Walk.cons 0 ⟨[(1, ⟨0, 1/2⟩), (2, ⟨1, 1⟩)]⟩ ⟨1, 1⟩ rfl (by simp) hw2
    have harith : (1 : ℚ) + 1 + (1/10 + 1 + 0) = 31/10 := by norm_num
    rwa [harith] at hw

theorem claim_C7_close_titles_candidates_sound_witness :
    (1, (⟨2, [0, 1]⟩ : PathInfo)) ∈ (get_close_titles_candidates g2ex 0 0 10).1 ∧
    ((0 : ℚ) ≤ (2 : ℚ) ∧ (2 : ℚ) ≤ 10 ∧ Walk g2ex 0 1 [0, 1] 2) :=
  ⟨by rw [g2ex_candidates_eval]; exact List.mem_singleton.mpr rfl,
   claim_C7_close_titles_candidates_sound g2ex 0 0 10 1 ⟨2, [0, 1]⟩
     (by rw [g2ex_candidates_eval]; exact List.mem_singleton.mpr rfl)⟩

/-- C8 counterexample: with `max_distance = -1` the traversal still pops and
relaxes the successors of the start node at cumulative distance `0 > -1`:
the expansion log contains the start at distance 0. -/
theorem claim_C8_counterexample :
    (get_close_titles_candidates g2ex 0 (-1) (-1)).2 = [(0, 0)] ∧
    ¬((0 : ℚ) ≤ -1) := by
  rw [g2ex_candidates_neg_eval]
  norm_num

theorem claim_C8_close_titles_bounded_witness :
    (0 : ℚ) ≤ 10 ∧
    ((∀ pr ∈ (get_close_titles_candidates g2ex 0 0 10).1, pr.2.distance ≤ 10) ∧
     (∀ q ∈ (get_close_titles_candidates g2ex 0 0 10).2, q.1 ≤ 10)) :=
  ⟨by norm_num, claim_C8_close_titles_bounded g2ex 0 0 10 (by norm_num)⟩

/-! ## Link extraction (`Page::from_entry`)

HTML parsing is the out-of-scope collaborator: it supplies the ordered list
of raw `href` strings of the article body. Everything after that — the
filter, first-occurrence de-duplication with interning, and positional
weighting — is modelled from the source. -/

/-- `str::starts_with` on the character sequence of a string. -/
def strStartsWith (s pre : String) : Bool := pre.data.isPrefixOf s.data

/-- The href filter of `Page::from_entry`. -/
def keepHref (h : String) : Bool :=
  !(strStartsWith h "http") && !(strStartsWith h "#") &&
  !(strStartsWith h "../") && !(strStartsWith h "_assets")

/-- Interner model (lasso `ThreadedRodeo`): the list of interned strings in
allocation order; a key is an index into it. -/
abbrev Interner := List String

/-- First index of `s` in the interner, if present. -/
def internIdx : Interner → String → Option ℕ
  | [], _ => none
  | t :: rest, s => if t = s then some 0 else (internIdx rest s).map (· + 1)

/-- `interner.get_or_intern(s)`: the existing key, or the next fresh key. -/
def getOrIntern (I : Interner) (s : String) : Interner × ℕ :=
  match internIdx I s with
  | some i => (I, i)
  | none => (I ++ [s], I.length)

/-- `interner.resolve(key)`. -/
def resolve (I : Interner) (k : ℕ) : String := I.getD k ""

/-- The fold of `Page::from_entry` collecting distinct hrefs in
first-occurrence order (`seen_paths` set, interned `paths` key list). -/
def collectLinks : Interner → List String → List String → List ℕ →
    Interner × List String × List ℕ
  | I, [], seen, keys => (I, seen, keys)
  | I, p :: rest, seen, keys =>
    if p ∈ seen then collectLinks I rest seen keys
    else collectLinks (getOrIntern I p).1 rest (p :: seen)
      (keys ++ [(getOrIntern I p).2])

/-- `fn linear_distance(i: usize, total: usize) -> f32 { i as f32 / total as f32 }`. -/
def linear_distance (i total : ℕ) : ℚ := (i : ℚ) / (total : ℚ)

/-- Association-list lookup standing for the links HashMap. -/
def lookupLink : List (Node × LinkInfo) → ℕ → Option LinkInfo
  | [], _ => none
  | (k, li) :: rest, v => if k = v then some li else lookupLink rest v

/-- The `enumerate().fold` of `Page::from_entry` assigning each distinct link
its position index and weight `linear_distance(i + 1, total_links)`, with
`or_insert` keeping the first binding of a key. -/
def weightsFold (total : ℕ) : ℕ → List ℕ → List (Node × LinkInfo) →
    List (Node × LinkInfo)
  | _, [], acc => acc
  | i, k :: rest, acc =>
    weightsFold total (i + 1) rest
      (if (lookupLink acc k).isSome then acc
       else acc ++ [(k, ⟨i, linear_distance (i + 1) total⟩)])

/-- `Page::from_entry`, acting on the collaborator-provided href list. -/
def Page.from_entry (I : Interner) (hrefs : List String) : Interner × Page :=
  let all := collectLinks I (hrefs.filter (fun h => keepHref h)) [] []
  (all.1, ⟨weightsFold all.2.2.length 0 all.2.2 []⟩)

/-- Specification-level first-occurrence de-duplication. -/
def dedupFirstAux (seen : List String) : List String → List String
  | [] => []
  | p :: rest =>
    if p ∈ seen then dedupFirstAux seen rest
    else p :: dedupFirstAux (p :: seen) rest

/-- The distinct retained targets of a body, in first-occurrence order. -/
def dedupFirst (ps : List String) : List String := dedupFirstAux [] ps

/-- Closed form of `weightsFold` on duplicate-free keys. -/
def weightsMap (total : ℕ) : ℕ → List ℕ → List (Node × LinkInfo)
  | _, [] => []
  | i, k :: rest => (k, ⟨i, linear_distance (i + 1) total⟩) :: weightsMap total (i + 1) rest

theorem lookupLink_append (l1 l2 : List (Node × LinkInfo)) (k : ℕ) :
    lookupLink (l1 ++ l2) k =
      (match lookupLink l1 k with
       | some v => some v
       | none => lookupLink l2 k) := by
  induction l1 with
  | nil => simp [lookupLink]
  | cons pr rest ih =>
    rcases pr with ⟨k2, li⟩
    by_cases hk : k2 = k
    · simp [lookupLink, hk]
    · simp [lookupLink, hk, ih]

theorem lookupLink_none_of_not_mem {acc : List (Node × LinkInfo)} {k : ℕ}
    (h : ∀ pr ∈ acc, pr.1 ≠ k) : lookupLink acc k = none := by
  induction acc with
  | nil => rfl
  | cons pr rest ih =>
    rcases pr with ⟨k2, li⟩
    have hne : k2 ≠ k := h (k2, li) (List.mem_cons_self _ _)
    simp only [lookupLink, if_neg hne]
    exact ih fun q hq => h q (List.mem_cons_of_mem _ hq)

theorem weightsFold_eq_map (total : ℕ) :
    ∀ (keys : List ℕ) (i : ℕ) (acc : List (Node × LinkInfo)),
      keys.Nodup → (∀ k ∈ keys, lookupLink acc k = none) →
      weightsFold total i keys acc = acc ++ weightsMap total i keys := by
  intro keys
  induction keys with
  | nil => intro i acc _ _; simp [weightsFold, weightsMap]
  | cons k rest ih =>
    intro i acc hnd hfresh
    have hk : lookupLink acc k = none := hfresh k (List.mem_cons_self _ _)
    rw [weightsFold, weightsMap]
    rw [if_neg (by simp [hk])]
    rw [ih (i + 1) _ (List.nodup_cons.mp hnd).2 ?fresh]
    · simp
    case fresh =>
      intro k2 hk2
      rw [lookupLink_append]
      rw [hfresh k2 (List.mem_cons_of_mem _ hk2)]
      have hne : k ≠ k2 := by
        intro heq
        exact (List.nodup_cons.mp hnd).1 (heq ▸ hk2)
      simp [lookupLink, hne]

theorem weightsMap_mem (total : ℕ) :
    ∀ (keys : List ℕ) (i : ℕ), ∀ pr ∈ weightsMap total i keys,
      i ≤ pr.2.index ∧ pr.2.index < i + keys.length ∧
      pr.2.weight = linear_distance (pr.2.index + 1) total := by
  intro keys
  induction keys with
  | nil => intro i pr hpr; cases hpr
  | cons k rest ih =>
    intro i pr hpr
    rcases List.mem_cons.mp hpr with rfl | hpr
    · simp
    · obtain ⟨h1, h2, h3⟩ := ih (i + 1) pr hpr
      refine ⟨by omega, by simp only [List.length_cons]; omega, h3⟩

theorem weightsMap_countP (total : ℕ) (f : ℕ → Bool) :
    ∀ (keys : List ℕ) (i : ℕ),
      (weightsMap total i keys).countP (fun pr => f pr.1) = keys.countP f := by
  intro keys
  induction keys with
  | nil => intro i; rfl
  | cons k rest ih =>
    intro i
    by_cases hf : f k
    · simp [weightsMap, List.countP_cons, hf, ih]
    · simp [weightsMap, List.countP_cons, hf, ih]

/-- The entry of a key in the closed-form weight map sits at the key's
position: if `f` holds of exactly the key at `findIdx f`, an entry whose key
satisfies `f` has index `i + keys.findIdx f`. -/
theorem weightsMap_findIdx (total : ℕ) (f : ℕ → Bool) :
    ∀ (keys : List ℕ) (i : ℕ), keys.countP f ≤ 1 →
      ∀ pr ∈ weightsMap total i keys, f pr.1 = true →
        pr.2.index = i + keys.findIdx f := by
  intro keys
  induction keys with
  | nil => intro i _ pr hpr; cases hpr
  | cons k rest ih =>
    intro i hcount pr hpr hf
    rcases List.mem_cons.mp hpr with rfl | hpr
    · dsimp only at hf ⊢
      rw [List.findIdx_cons]
      simp [hf]
    · have hfk : f k = false := by
        by_contra hk
        simp only [Bool.not_eq_false] at hk
        have h1 : 0 < List.countP f rest := by
          have := weightsMap_countP total f rest (i + 1)
          have hmem : pr ∈ weightsMap total (i + 1) rest := hpr
          have : 0 < (weightsMap total (i + 1) rest).countP (fun pr => f pr.1) := by
            apply List.countP_pos.mpr
            exact ⟨pr, hmem, by simpa using hf⟩
          omega
        have hcc : List.countP f (k :: rest) = List.countP f rest + 1 := by
          rw [List.countP_cons]
          simp [hk]
        omega
      rw [List.findIdx_cons]
      simp only [hfk, cond_false]
      have hcount2 : rest.countP f ≤ 1 := by
        have hcc : List.countP f (k :: rest) = List.countP f rest := by
          rw [List.countP_cons]
          simp [hfk]
        omega
      have := ih (i + 1) hcount2 pr hpr hf
      omega

theorem mem_dedupFirstAux (ps : List String) :
    ∀ seen t, t ∈ dedupFirstAux seen ps ↔ (t ∈ ps ∧ t ∉ seen) := by
  induction ps with
  | nil => intro seen t; simp [dedupFirstAux]
  | cons p rest ih =>
    intro seen t
    by_cases hp : p ∈ seen
    · rw [dedupFirstAux, if_pos hp, ih]
      constructor
      · rintro ⟨h1, h2⟩
        exact ⟨List.mem_cons_of_mem _ h1, h2⟩
      · rintro ⟨h1, h2⟩
        rcases List.mem_cons.mp h1 with rfl | h1
        · exact absurd hp h2
        · exact ⟨h1, h2⟩
    · rw [dedupFirstAux, if_neg hp]
      constructor
      · intro ht
        rcases List.mem_cons.mp ht with rfl | ht
        · exact ⟨List.mem_cons_self _ _, hp⟩
        · obtain ⟨h1, h2⟩ := (ih (p :: seen) t).mp ht
          refine ⟨List.mem_cons_of_mem _ h1, ?_⟩
          intro hmem
          exact h2 (List.mem_cons_of_mem _ hmem)
      · rintro ⟨h1, h2⟩
        rcases List.mem_cons.mp h1 with rfl | h1
        · exact List.mem_cons_self _ _
        · by_cases htp : t = p
          · subst htp
            exact List.mem_cons_self _ _
          · apply List.mem_cons_of_mem
            exact (ih (p :: seen) t).mpr ⟨h1, by simp [htp, h2]⟩

theorem dedupFirstAux_nodup (ps : List String) :
    ∀ seen, (dedupFirstAux seen ps).Nodup := by
  induction ps with
  | nil => intro seen; simp [dedupFirstAux]
  | cons p rest ih =>
    intro seen
    by_cases hp : p ∈ seen
    · rw [dedupFirstAux, if_pos hp]
      exact ih seen
    · rw [dedupFirstAux, if_neg hp]
      refine List.nodup_cons.mpr ⟨?_, ih (p :: seen)⟩
      intro hmem
      obtain ⟨_, h2⟩ := (mem_dedupFirstAux rest (p :: seen) p).mp hmem
      exact h2 (List.mem_cons_self _ _)

theorem internIdx_some {I : Interner} {s : String} {i : ℕ}
    (h : internIdx I s = some i) : i < I.length ∧ I.getD i "" = s := by
  induction I generalizing i with
  | nil => cases h
  | cons t rest ih =>
    by_cases hts : t = s
    · rw [internIdx, if_pos hts] at h
      cases h
      simpa using hts
    · rw [internIdx, if_neg hts] at h
      cases hrec : internIdx rest s with
      | none => rw [hrec] at h; cases h
      | some j =>
        rw [hrec] at h
        simp only [Option.map] at h
        cases h
        obtain ⟨h1, h2⟩ := ih hrec
        exact ⟨by simpa using Nat.succ_lt_succ h1, by simpa using h2⟩

theorem internIdx_none_iff {I : Interner} {s : String} :
    internIdx I s = none ↔ s ∉ I := by
  induction I with
  | nil => simp [internIdx]
  | cons t rest ih =>
    by_cases hts : t = s
    · subst hts
      simp [internIdx]
    · rw [internIdx, if_neg hts]
      constructor
      · intro h hmem
        rcases List.mem_cons.mp hmem with rfl | hmem
        · exact hts rfl
        · cases hrec : internIdx rest s with
          | none => exact (ih.mp hrec) hmem
          | some j =>
            rw [hrec] at h
            simp only [Option.map] at h
            cases h
      · intro h
        have hs : s ∉ rest := fun hm => h (List.mem_cons_of_mem _ hm)
        rw [ih.mpr hs]
        rfl

/-- Full specification of the link-collection fold: the interner stays
duplicate-free and stable on old keys, the key list stays duplicate-free,
keys resolve into the seen set, and the collected keys resolve exactly to the
first-occurrence de-duplication of the remaining input. -/
theorem collectLinks_spec :
    ∀ (ps : List String) (I : Interner) (seen : List String) (keys : List ℕ),
      I.Nodup → keys.Nodup →
      (∀ k ∈ keys, k < I.length ∧ resolve I k ∈ seen) →
      (collectLinks I ps seen keys).1.Nodup ∧
      (collectLinks I ps seen keys).2.2.Nodup ∧
      (∀ k ∈ (collectLinks I ps seen keys).2.2,
        k < (collectLinks I ps seen keys).1.length ∧
        resolve (collectLinks I ps seen keys).1 k ∈ (collectLinks I ps seen keys).2.1) ∧
      I.length ≤ (collectLinks I ps seen keys).1.length ∧
      (∀ j < I.length, resolve (collectLinks I ps seen keys).1 j = resolve I j) ∧
      (collectLinks I ps seen keys).2.2.map (resolve (collectLinks I ps seen keys).1)
        = keys.map (resolve I) ++ dedupFirstAux seen ps := by
  intro ps
  induction ps with
  | nil =>
    intro I seen keys hI hkeys hinv
    refine ⟨hI, hkeys, ?_, le_refl _, fun j _ => rfl, by simp [collectLinks, dedupFirstAux]⟩
    intro k hk
    exact hinv k hk
  | cons p rest ih =>
    intro I seen keys hI hkeys hinv
    by_cases hp : p ∈ seen
    · rw [collectLinks, if_pos hp]
      rw [dedupFirstAux, if_pos hp]
      exact ih I seen keys hI hkeys hinv
    · rw [collectLinks, if_neg hp]
      rw [dedupFirstAux, if_neg hp]
      -- facts about the interning of p
      have hstep :
          (getOrIntern I p).1.Nodup ∧
          (getOrIntern I p).2 < (getOrIntern I p).1.length ∧
          resolve (getOrIntern I p).1 (getOrIntern I p).2 = p ∧
          I.length ≤ (getOrIntern I p).1.length ∧
          (∀ j < I.length, resolve (getOrIntern I p).1 j = resolve I j) ∧
          (getOrIntern I p).2 ∉ keys := by
        unfold getOrIntern
        cases hfind : internIdx I p with
        | some i =>
          obtain ⟨hlen, hget⟩ := internIdx_some hfind
          refine ⟨hI, hlen, hget, le_refl _, fun j _ => rfl, ?_⟩
          intro hmem
          have := (hinv i hmem).2
          rw [resolve, hget] at this
          exact hp this
        | none =>
          have hnm : p ∉ I := internIdx_none_iff.mp hfind
          dsimp only
          refine ⟨?_, by simp, ?_, by simp, ?_, ?_⟩
          · simpa [List.nodup_append] using ⟨hI, hnm⟩
          · rw [resolve, List.getD_append_right _ _ _ _ (le_refl _)]
            simp
          · intro j hj
            rw [resolve, resolve, List.getD_append _ _ _ _ hj]
          · intro hmem
            have := (hinv _ hmem).1
            omega
      obtain ⟨hI2, hk0lt, hk0res, hlen2, hstab2, hk0keys⟩ := hstep
      have hkeys2 : (keys ++ [(getOrIntern I p).2]).Nodup := by
        rw [List.nodup_append]
        refine ⟨hkeys, List.nodup_singleton _, ?_⟩
        intro a ha hb
        simp only [List.mem_singleton] at hb
        subst hb
        exact hk0keys ha
      have hinv2 : ∀ k ∈ keys ++ [(getOrIntern I p).2],
          k < (getOrIntern I p).1.length ∧
          resolve (getOrIntern I p).1 k ∈ p :: seen := by
        intro k hk
        rcases List.mem_append.mp hk with hk | hk
        · obtain ⟨h1, h2⟩ := hinv k hk
          refine ⟨lt_of_lt_of_le h1 hlen2, ?_⟩
          rw [hstab2 k h1]
          exact List.mem_cons_of_mem _ h2
        · simp only [List.mem_singleton] at hk
          subst hk
          rw [hk0res]
          exact ⟨hk0lt, List.mem_cons_self _ _⟩
      obtain ⟨rI, rK, rInv, rLen, rStab, rMap⟩ :=
        ih (getOrIntern I p).1 (p :: seen) (keys ++ [(getOrIntern I p).2])
          hI2 hkeys2 hinv2
      refine ⟨rI, rK, rInv, le_trans hlen2 rLen, ?_, ?_⟩
      · intro j hj
        rw [rStab j (lt_of_lt_of_le hj hlen2), hstab2 j hj]
      · rw [rMap]
        rw [List.map_append]
        have hmapkeys :
            keys.map (resolve (getOrIntern I p).1) = keys.map (resolve I) := by
          apply List.map_congr_left
          intro k hk
          exact hstab2 k (hinv k hk).1
        simp only [List.map_cons, List.map_nil, hmapkeys, hk0res]
        simp

theorem weightsMap_length (total : ℕ) :
    ∀ (keys : List ℕ) (i : ℕ), (weightsMap total i keys).length = keys.length := by
  intro keys
  induction keys with
  | nil => intro i; rfl
  | cons k rest ih => intro i; simp [weightsMap, ih]

theorem findIdx_map (g : ℕ → String) (l : List ℕ) (p : String → Bool) :
    (l.map g).findIdx p = l.findIdx (fun k => p (g k)) := by
  induction l with
  | nil => rfl
  | cons k rest ih =>
    rw [List.map_cons, List.findIdx_cons, List.findIdx_cons, ih]

/-- The links field produced by `Page::from_entry` in closed form. -/
theorem from_entry_links (I : Interner) (hrefs : List String) (hI : I.Nodup) :
    ((Page.from_entry I hrefs).2.links_to_weight =
      weightsMap
        (collectLinks I (hrefs.filter (fun h => keepHref h)) [] []).2.2.length 0
        (collectLinks I (hrefs.filter (fun h => keepHref h)) [] []).2.2) ∧
    (collectLinks I (hrefs.filter (fun h => keepHref h)) [] []).2.2.Nodup ∧
    (collectLinks I (hrefs.filter (fun h => keepHref h)) [] []).2.2.map
        (resolve (Page.from_entry I hrefs).1)
      = dedupFirst (hrefs.filter (fun h => keepHref h)) := by
  obtain ⟨hI2, hK, hInv, hLen, hStab, hMap⟩ :=
    collectLinks_spec (hrefs.filter (fun h => keepHref h)) I [] []
      hI (List.nodup_nil) (by intro k hk; cases hk)
  refine ⟨?_, hK, ?_⟩
  · unfold Page.from_entry
    dsimp only
    rw [weightsFold_eq_map _ _ _ [] hK (fun k _ => rfl)]
    simp
  · unfold Page.from_entry dedupFirst
    dsimp only
    rw [hMap]
    simp

/-- C6: for every Page built by link extraction with `n` distinct links, the
link at position index `i` has weight `(i+1)/n`; weights are strictly
increasing in the position index and lie in the half-open interval `(0, 1]`. -/
theorem claim_C6_weight_assignment (I : Interner) (hrefs : List String)
    (hI : I.Nodup) :
    (∀ pr ∈ (Page.from_entry I hrefs).2.links_to_weight,
       pr.2.weight = ((pr.2.index : ℚ) + 1) /
         (((Page.from_entry I hrefs).2.links_to_weight.length : ℚ)) ∧
       0 < pr.2.weight ∧ pr.2.weight ≤ 1) ∧
    (∀ pr1 ∈ (Page.from_entry I hrefs).2.links_to_weight,
     ∀ pr2 ∈ (Page.from_entry I hrefs).2.links_to_weight,
       pr1.2.index < pr2.2.index → pr1.2.weight < pr2.2.weight) := by
  obtain ⟨hpage, hK, hMap⟩ := from_entry_links I hrefs hI
  set keys := (collectLinks I (hrefs.filter (fun h => keepHref h)) [] []).2.2 with hkeys
  have hlen : (Page.from_entry I hrefs).2.links_to_weight.length = keys.length := by
    rw [hpage, weightsMap_length]
  have hprops : ∀ pr ∈ (Page.from_entry I hrefs).2.links_to_weight,
      pr.2.index < keys.length ∧
      pr.2.weight = linear_distance (pr.2.index + 1) keys.length := by
    intro pr hpr
    rw [hpage] at hpr
    obtain ⟨h1, h2, h3⟩ := weightsMap_mem keys.length keys 0 pr hpr
    exact ⟨by omega, h3⟩
  constructor
  · intro pr hpr
    obtain ⟨hidx, hwt⟩ := hprops pr hpr
    have hn : 0 < keys.length := by omega
    have hnq : 0 < (keys.length : ℚ) := by exact_mod_cast hn
    have hweq : pr.2.weight = ((pr.2.index : ℚ) + 1) / (keys.length : ℚ) := by
      rw [hwt, linear_distance]
      push_cast
      ring
    refine ⟨by rw [hlen, hweq], ?_, ?_⟩
    · rw [hweq]
      apply div_pos _ hnq
      positivity
    · rw [hweq]
      rw [div_le_one hnq]
      have : (pr.2.index : ℚ) + 1 ≤ (keys.length : ℚ) := by
        exact_mod_cast Nat.succ_le_of_lt hidx
      linarith
  · intro pr1 hpr1 pr2 hpr2 hlt
    obtain ⟨hidx1, hwt1⟩ := hprops pr1 hpr1
    obtain ⟨hidx2, hwt2⟩ := hprops pr2 hpr2
    have hn : 0 < keys.length := by omega
    have hnq : 0 < (keys.length : ℚ) := by exact_mod_cast hn
    rw [hwt1, hwt2, linear_distance, linear_distance]
    rw [div_lt_div_right hnq]
    exact_mod_cast Nat.succ_lt_succ hlt

theorem claim_C6_weight_assignment_witness :
    List.Nodup ([] : Interner) ∧
    ((∀ pr ∈ (Page.from_entry [] ["a", "b"]).2.links_to_weight,
       pr.2.weight = ((pr.2.index : ℚ) + 1) /
         (((Page.from_entry [] ["a", "b"]).2.links_to_weight.length : ℚ)) ∧
       0 < pr.2.weight ∧ pr.2.weight ≤ 1) ∧
    (∀ pr1 ∈ (Page.from_entry [] ["a", "b"]).2.links_to_weight,
     ∀ pr2 ∈ (Page.from_entry [] ["a", "b"]).2.links_to_weight,
       pr1.2.index < pr2.2.index → pr1.2.weight < pr2.2.weight)) :=
  ⟨List.nodup_nil, claim_C6_weight_assignment [] ["a", "b"] List.nodup_nil⟩

/-- C9: a target occurring any number of times (at least once) among the
retained hrefs yields exactly one Page entry, whose position index is the
position of its first occurrence among the distinct retained targets. -/
theorem claim_C9_first_occurrence_dedup (I : Interner) (hrefs : List String)
    (t : String) (hI : I.Nodup)
    (ht : t ∈ hrefs.filter (fun h => keepHref h)) :
    ((Page.from_entry I hrefs).2.links_to_weight.countP
        (fun pr => resolve (Page.from_entry I hrefs).1 pr.1 == t)) = 1 ∧
    (∀ pr ∈ (Page.from_entry I hrefs).2.links_to_weight,
       resolve (Page.from_entry I hrefs).1 pr.1 = t →
       pr.2.index =
         (dedupFirst (hrefs.filter (fun h => keepHref h))).indexOf t) := by
  obtain ⟨hpage, hK, hMap⟩ := from_entry_links I hrefs hI
  set keys := (collectLinks I (hrefs.filter (fun h => keepHref h)) [] []).2.2 with hkeys
  set I2 := (Page.from_entry I hrefs).1 with hI2def
  set ds := dedupFirst (hrefs.filter (fun h => keepHref h)) with hdsdef
  have htds : t ∈ ds := by
    rw [hdsdef, dedupFirst]
    exact (mem_dedupFirstAux _ [] t).mpr ⟨ht, by simp⟩
  have hdsnd : ds.Nodup := dedupFirstAux_nodup _ []
  have hcountkeys : keys.countP (fun k => resolve I2 k == t) = 1 := by
    have h1 : keys.countP (fun k => resolve I2 k == t)
        = (keys.map (resolve I2)).countP (· == t) := by
      rw [List.countP_map]
      rfl
    rw [h1, hMap]
    have : ds.countP (· == t) = ds.count t := rfl
    rw [this]
    exact List.count_eq_one_of_mem hdsnd htds
  constructor
  · rw [hpage]
    have hcp := weightsMap_countP keys.length (fun k => resolve I2 k == t) keys 0
    exact hcp.trans hcountkeys
  · intro pr hpr hres
    rw [hpage] at hpr
    have hidx := weightsMap_findIdx keys.length (fun k => resolve I2 k == t)
      keys 0 (le_of_eq hcountkeys) pr hpr (by simp [hres])
    rw [hidx]
    have hfi : keys.findIdx (fun k => resolve I2 k == t)
        = (keys.map (resolve I2)).findIdx (· == t) := by
      rw [findIdx_map]
    rw [Nat.zero_add, hfi, hMap]
    rfl

theorem claim_C9_first_occurrence_dedup_witness :
    List.Nodup ([] : Interner) ∧
    "a" ∈ ["a", "b", "a"].filter (fun h => keepHref h) ∧
    (((Page.from_entry [] ["a", "b", "a"]).2.links_to_weight.countP
        (fun pr => resolve (Page.from_entry [] ["a", "b", "a"]).1 pr.1 == "a")) = 1 ∧
    (∀ pr ∈ (Page.from_entry [] ["a", "b", "a"]).2.links_to_weight,
       resolve (Page.from_entry [] ["a", "b", "a"]).1 pr.1 = "a" →
       pr.2.index =
         (dedupFirst (["a", "b", "a"].filter (fun h => keepHref h))).indexOf "a")) :=
  ⟨List.nodup_nil, List.mem_filter.mpr ⟨by simp, by decide⟩,
   claim_C9_first_occurrence_dedup [] ["a", "b", "a"] "a" List.nodup_nil
     (List.mem_filter.mpr ⟨by simp, by decide⟩)⟩

/-! ## Persistence (`WikiGraph::save_bin` / `WikiGraph::load_bin`)

The two artifacts are modelled by the values they encode: bincode encoding
followed by decoding of the same value, and the file write/read, are the
externally-provided inverse pair. What the program contributes — extracting
the interner as an ordered string list by key, and replaying it on load
before decoding the key-indexed Page map — is modelled from the source. -/

/-- `save_bin`: the interner as its ordered string list (resolving key `i`
for `i` in `0..len`), plus the key-to-Page map. -/
def save_bin (g : Graph) (I : Interner) : List String × Graph :=
  ((List.range I.length).map (fun i => resolve I i), g)

/-- `load_bin`: replay the saved strings through a fresh interner with
`get_or_intern`, then decode the key-indexed Page map. -/
def load_bin (a : List String × Graph) : Interner × Graph :=
  (a.1.foldl (fun I s => (getOrIntern I s).1) [], a.2)

theorem range_map_resolve (I : Interner) :
    (List.range I.length).map (fun i => resolve I i) = I := by
  induction I with
  | nil => rfl
  | cons t rest ih =>
    rw [List.length_cons, List.range_succ_eq_map]
    rw [List.map_cons, List.map_map]
    have h0 : resolve (t :: rest) 0 = t := rfl
    have hsucc : ((fun i => resolve (t :: rest) i) ∘ Nat.succ)
        = fun i => resolve rest i := by
      funext i
      rfl
    rw [h0, hsucc, ih]

theorem replay_intern (rest : List String) :
    ∀ pre : Interner, (pre ++ rest).Nodup →
      rest.foldl (fun I s => (getOrIntern I s).1) pre = pre ++ rest := by
  induction rest with
  | nil => intro pre _; simp
  | cons s rest2 ih =>
    intro pre hnd
    have hs : s ∉ pre := by
      intro hmem
      rw [List.nodup_append] at hnd
      exact hnd.2.2 hmem (List.mem_cons_self _ _)
    rw [List.foldl_cons]
    have hstep : (getOrIntern pre s).1 = pre ++ [s] := by
      unfold getOrIntern
      rw [internIdx_none_iff.mpr hs]
    rw [hstep]
    have hnd2 : ((pre ++ [s]) ++ rest2).Nodup := by
      rw [List.append_assoc]
      simpa using hnd
    rw [ih (pre ++ [s]) hnd2, List.append_assoc]
    rfl

/-- C5: saving and then loading a Graph Store and Interner reconstructs a
structurally identical key space and identical Page contents: the interner is
rebuilt exactly (every key resolves to the same string), and every key maps
to the same Page, with the same target keys, weights, and position indices. -/
theorem claim_C5_save_load_roundtrip (g : Graph) (I : Interner)
    (hI : I.Nodup) :
    (load_bin (save_bin g I)).1 = I ∧
    (∀ k, resolve (load_bin (save_bin g I)).1 k = resolve I k) ∧
    (∀ k, lookupPage (load_bin (save_bin g I)).2 k = lookupPage g k) := by
  have hload : (load_bin (save_bin g I)).1 = I := by
    unfold load_bin save_bin
    dsimp only
    rw [range_map_resolve]
    simpa using replay_intern I [] (by simpa using hI)
  exact ⟨hload, fun k => by rw [hload], fun k => rfl⟩

theorem claim_C5_save_load_roundtrip_witness :
    List.Nodup ["a", "b"] ∧
    ((load_bin (save_bin [(0, ⟨[(1, ⟨0, 1⟩)]⟩)] ["a", "b"])).1 = ["a", "b"] ∧
     (∀ k, resolve (load_bin (save_bin [(0, ⟨[(1, ⟨0, 1⟩)]⟩)] ["a", "b"])).1 k
        = resolve ["a", "b"] k) ∧
     (∀ k, lookupPage (load_bin (save_bin [(0, ⟨[(1, ⟨0, 1⟩)]⟩)] ["a", "b"])).2 k
        = lookupPage [(0, ⟨[(1, ⟨0, 1⟩)]⟩)] k)) :=
  ⟨by decide, claim_C5_save_load_roundtrip [(0, ⟨[(1, ⟨0, 1⟩)]⟩)] ["a", "b"]
    (by decide)⟩

/-! ## Minimal ZIM reader (src/zim.rs)

Bytes are naturals below 256 in a list standing for the mapped file. The xz
decompressor (the `xz2` library) is an explicit function argument. -/

/-- `enum ZimError` (payloads kept only where a claim mentions them). -/
inductive ZimError
  | Io
  | Utf8
  | InvalidMagic
  | Unsupported
  | Decompress (msg : String)
  | EntryParse
  deriving Repr, DecidableEq

/-- `struct ZimHeader` (minimal fields). -/
structure ZimHeader where
  major_version : ℕ
  minor_version : ℕ
  uuid : List ℕ
  article_count : ℕ
  cluster_count : ℕ
  url_ptr_pos : ℕ
  title_ptr_pos : ℕ
  cluster_ptr_pos : ℕ
  mime_list_pos : ℕ
  main_page : ℕ
  layout_page : ℕ
  deriving Repr, DecidableEq

/-- `struct DirEntry`. -/
structure DirEntry where
  path : List ℕ
  title : List ℕ
  mimetype : ℕ
  cluster : ℕ
  blob_index : ℕ
  offset : ℕ
  deriving Repr, DecidableEq

def readU8 (bs : List ℕ) (pos : ℕ) : Option ℕ := bs[pos]?

def readU16 (bs : List ℕ) (pos : ℕ) : Option ℕ := do
  let b0 ← bs[pos]?
  let b1 ← bs[pos + 1]?
  pure (b0 + 256 * b1)

def readU32 (bs : List ℕ) (pos : ℕ) : Option ℕ := do
  let b0 ← bs[pos]?
  let b1 ← bs[pos + 1]?
  let b2 ← bs[pos + 2]?
  let b3 ← bs[pos + 3]?
  pure (b0 + 256 * b1 + 65536 * b2 + 16777216 * b3)

def readU64 (bs : List ℕ) (pos : ℕ) : Option ℕ := do
  let lo ← readU32 bs pos
  let hi ← readU32 bs (pos + 4)
  pure (lo + 4294967296 * hi)

def readBytes (bs : List ℕ) (pos n : ℕ) : Option (List ℕ) :=
  if pos + n ≤ bs.length then some ((bs.drop pos).take n) else none

def MAGIC_LE : ℕ := 0x004D495A
def MAGIC_BE : ℕ := 0x5A494D00
def MAGIC_V6 : ℕ := 0x044D495A

/-- `parse_header`: refuse files shorter than 72 bytes, check the magic
against the three accepted constants, then read the remaining fields (a
failed cursor read is an I/O error). There is no version check of any kind. -/
def parse_header (bs : List ℕ) : Except ZimError ZimHeader :=
  if bs.length < 72 then .error .Unsupported
  else
    match readU32 bs 0 with
    | none => .error .Io
    | some magic =>
      if magic ≠ MAGIC_LE ∧ magic ≠ MAGIC_BE ∧ magic ≠ MAGIC_V6 then
        .error .InvalidMagic
      else
        match readU16 bs 4, readU16 bs 6, readBytes bs 8 16, readU32 bs 24,
              readU32 bs 28, readU64 bs 32, readU64 bs 40, readU64 bs 48,
              readU64 bs 56, readU32 bs 64, readU32 bs 68 with
        | some major, some minor, some uuid, some article_count,
          some cluster_count, some url_ptr_pos, some title_ptr_pos,
          some cluster_ptr_pos, some mime_list_pos, some main_page,
          some layout_page =>
            .ok ⟨major, minor, uuid, article_count, cluster_count, url_ptr_pos,
              title_ptr_pos, cluster_ptr_pos, mime_list_pos, main_page,
              layout_page⟩
        | _, _, _, _, _, _, _, _, _, _, _ => .error .Io

/-- Continuation byte of a UTF-8 sequence. -/
def utf8Cont (b : ℕ) : Bool := decide (128 ≤ b ∧ b < 192)

/-- Strict UTF-8 validity of a byte sequence, as `String::from_utf8`
(rejecting overlong encodings, surrogates, and values beyond U+10FFFF). -/
def utf8Ok : List ℕ → Bool
  | [] => true
  | b :: r =>
    if b < 128 then utf8Ok r
    else if b < 194 then false
    else if b < 224 then
      match r with
      | c :: r2 => utf8Cont c && utf8Ok r2
      | [] => false
    else if b < 240 then
      match r with
      | c :: d :: r2 =>
        (if b = 224 then decide (160 ≤ c ∧ c < 192)
         else if b = 237 then decide (128 ≤ c ∧ c < 160)
         else utf8Cont c) && utf8Cont d && utf8Ok r2
      | _ => false
    else if b < 245 then
      match r with
      | c :: d :: e2 :: r2 =>
        (if b = 240 then decide (144 ≤ c ∧ c < 192)
         else if b = 244 then decide (128 ≤ c ∧ c < 144)
         else utf8Cont c) && utf8Cont d && utf8Cont e2 && utf8Ok r2
      | _ => false
    else false

/-- Index of the first NUL byte (the `while end < len && slice[end] != 0`
scan). -/
def findNul : List ℕ → Option ℕ
  | [] => none
  | b :: r => if b = 0 then some 0 else (findNul r).map (· + 1)

/-- `read_nul_string`: scan forward to the next NUL; reaching the end of the
slice first is an entry-parse failure; the bytes must be valid UTF-8. -/
def read_nul_string (slice : List ℕ) (pos : ℕ) :
    Except ZimError (List ℕ × ℕ) :=
  match findNul (slice.drop pos) with
  | none => .error .EntryParse
  | some i =>
    let bytes := (slice.drop pos).take i
    if utf8Ok bytes then .ok (bytes, pos + i + 1) else .error .Utf8

/-- `parse_dir_entry_minimal`: NUL-terminated path, NUL-terminated title,
then mimetype u16, cluster u32, blob u32, little-endian. -/
def parse_dir_entry_minimal (mmap : List ℕ) (offset : ℕ) :
    Except ZimError DirEntry :=
  if offset ≥ mmap.length then .error .EntryParse
  else
    let slice := mmap.drop offset
    match read_nul_string slice 0 with
    | .error e => .error e
    | .ok (path, p1) =>
      match read_nul_string slice p1 with
      | .error e => .error e
      | .ok (title, p2) =>
        if p2 + 2 + 4 + 4 > slice.length then .error .EntryParse
        else
          match readU16 slice p2, readU32 slice (p2 + 2), readU32 slice (p2 + 6) with
          | some m, some c, some b => .ok ⟨path, title, m, c, b, offset⟩
          | _, _, _ => .error .EntryParse

/-! ### C2: header validation -/

theorem readU8_isSome (bs : List ℕ) (pos : ℕ) (h : pos < bs.length) :
    ∃ v, readU8 bs pos = some v := by
  unfold readU8
  exact ⟨bs[pos], List.getElem?_eq_getElem h⟩

theorem readU16_isSome (bs : List ℕ) (pos : ℕ) (h : pos + 2 ≤ bs.length) :
    ∃ v, readU16 bs pos = some v := by
  obtain ⟨v0, h0⟩ := readU8_isSome bs pos (by omega)
  obtain ⟨v1, h1⟩ := readU8_isSome bs (pos + 1) (by omega)
  unfold readU8 at h0 h1
  exact ⟨v0 + 256 * v1, by unfold readU16; rw [h0, h1]; rfl⟩

theorem readU32_isSome (bs : List ℕ) (pos : ℕ) (h : pos + 4 ≤ bs.length) :
    ∃ v, readU32 bs pos = some v := by
  obtain ⟨v0, h0⟩ := readU8_isSome bs pos (by omega)
  obtain ⟨v1, h1⟩ := readU8_isSome bs (pos + 1) (by omega)
  obtain ⟨v2, h2⟩ := readU8_isSome bs (pos + 2) (by omega)
  obtain ⟨v3, h3⟩ := readU8_isSome bs (pos + 3) (by omega)
  unfold readU8 at h0 h1 h2 h3
  refine ⟨v0 + 256 * v1 + 65536 * v2 + 16777216 * v3, ?_⟩
  unfold readU32
  rw [h0, h1, h2, h3]
  rfl

theorem readU64_isSome (bs : List ℕ) (pos : ℕ) (h : pos + 8 ≤ bs.length) :
    ∃ v, readU64 bs pos = some v := by
  obtain ⟨lo, hlo⟩ := readU32_isSome bs pos (by omega)
  obtain ⟨hi, hhi⟩ := readU32_isSome bs (pos + 4) (by omega)
  refine ⟨lo + 4294967296 * hi, ?_⟩
  unfold readU64
  rw [hlo, hhi]
  rfl

/-- C2 (amended): opening a file of at least the 72 header bytes fails with
`InvalidMagic` exactly when the leading magic constant matches none of the
three accepted values; with an accepted magic the header parses successfully
regardless of the major version — the code performs no version check and has
no unsupported-version failure (files shorter than 72 bytes fail with
`Unsupported` before the magic is read). -/
theorem parse_header_ok_of_magic (bs : List ℕ) (h : 72 ≤ bs.length) (m : ℕ)
    (hm : readU32 bs 0 = some m)
    (hgood : m = MAGIC_LE ∨ m = MAGIC_BE ∨ m = MAGIC_V6) :
    ∃ hd, parse_header bs = .ok hd ∧ readU16 bs 4 = some hd.major_version := by
  obtain ⟨major, hmaj⟩ := readU16_isSome bs 4 (by omega)
  obtain ⟨minor, hmin⟩ := readU16_isSome bs 6 (by omega)
  have huuid : readBytes bs 8 16 = some ((bs.drop 8).take 16) := by
    unfold readBytes
    rw [if_pos (by omega)]
  obtain ⟨ac, hac⟩ := readU32_isSome bs 24 (by omega)
  obtain ⟨cc, hcc⟩ := readU32_isSome bs 28 (by omega)
  obtain ⟨up, hup⟩ := readU64_isSome bs 32 (by omega)
  obtain ⟨tp, htp⟩ := readU64_isSome bs 40 (by omega)
  obtain ⟨cp, hcp⟩ := readU64_isSome bs 48 (by omega)
  obtain ⟨mp, hmp⟩ := readU64_isSome bs 56 (by omega)
  obtain ⟨mn, hmn⟩ := readU32_isSome bs 64 (by omega)
  obtain ⟨lp, hlp⟩ := readU32_isSome bs 68 (by omega)
  unfold parse_header
  rw [if_neg (by omega), hm]
  dsimp only
  rw [if_neg (by tauto)]
  rw [hmaj, hmin, huuid, hac, hcc, hup, htp, hcp, hmp, hmn, hlp]
  dsimp only
  exact ⟨⟨major, minor, (bs.drop 8).take 16, ac, cc, up, tp, cp, mp, mn, lp⟩,
    rfl, rfl⟩

theorem claim_C2_header_validation (bs : List ℕ) (h : 72 ≤ bs.length) (m : ℕ)
    (hm : readU32 bs 0 = some m) :
    ((m ≠ MAGIC_LE ∧ m ≠ MAGIC_BE ∧ m ≠ MAGIC_V6) →
        parse_header bs = .error .InvalidMagic) ∧
    ((m = MAGIC_LE ∨ m = MAGIC_BE ∨ m = MAGIC_V6) →
        ∃ hd, parse_header bs = .ok hd ∧
          readU16 bs 4 = some hd.major_version) := by
  constructor
  · intro hbad
    unfold parse_header
    rw [if_neg (by omega), hm]
    dsimp only
    rw [if_pos hbad]
  · exact parse_header_ok_of_magic bs h m hm

/-- A 72-byte header with a valid magic and an arbitrary major version. -/
def mkHdr (v : ℕ) : List ℕ :=
  [0x5A, 0x49, 0x4D, 0x00, v % 256, v / 256 % 256] ++ List.replicate 66 0

theorem mkHdr_length (v : ℕ) : (mkHdr v).length = 72 := by
  unfold mkHdr
  rw [List.length_append, List.length_replicate]
  norm_num

theorem mkHdr_magic (v : ℕ) : readU32 (mkHdr v) 0 = some MAGIC_LE := by
  norm_num [mkHdr, readU32, MAGIC_LE]

theorem mkHdr_parses (v : ℕ) : (parse_header (mkHdr v)).isOk = true := by
  obtain ⟨hd, hok, _⟩ := parse_header_ok_of_magic (mkHdr v)
    (by rw [mkHdr_length]) MAGIC_LE (mkHdr_magic v) (Or.inl rfl)
  rw [hok]
  rfl

/-- Modelled from the spec (claim C2): a proper supported set of major
versions exists outside which opening fails. The code contains no such gate. -/
def specVersionGate : Prop :=
  ∃ S : Finset ℕ, S ⊂ Finset.range 65536 ∧
    ∀ v ∈ Finset.range 65536, v ∉ S → (parse_header (mkHdr v)).isOk = false

/-- C2 counterexample: no supported range of major versions exists — for
every major version the header parses successfully, so no version is ever
rejected with an unsupported-version failure. -/
theorem claim_C2_counterexample : ¬specVersionGate := by
  rintro ⟨S, hproper, hrej⟩
  obtain ⟨v, hvr, hvs⟩ := Finset.exists_of_ssubset hproper
  have := hrej v hvr hvs
  rw [mkHdr_parses v] at this
  cases this

theorem claim_C2_header_validation_witness :
    72 ≤ (mkHdr 65535).length ∧ readU32 (mkHdr 65535) 0 = some MAGIC_LE ∧
    (((MAGIC_LE ≠ MAGIC_LE ∧ MAGIC_LE ≠ MAGIC_BE ∧ MAGIC_LE ≠ MAGIC_V6) →
        parse_header (mkHdr 65535) = .error .InvalidMagic) ∧
     ((MAGIC_LE = MAGIC_LE ∨ MAGIC_LE = MAGIC_BE ∨ MAGIC_LE = MAGIC_V6) →
        ∃ hd, parse_header (mkHdr 65535) = .ok hd ∧
          readU16 (mkHdr 65535) 4 = some hd.major_version)) :=
  ⟨by decide, by decide,
   claim_C2_header_validation (mkHdr 65535) (by decide) MAGIC_LE (by decide)⟩

/-! ### C4: directory-entry layout -/

def u16le (m : ℕ) : List ℕ := [m % 256, m / 256 % 256]

def u32le (c : ℕ) : List ℕ :=
  [c % 256, c / 256 % 256, c / 65536 % 256, c / 16777216 % 256]

/-- Modelled from the spec (claim C4): the directory-entry layout the claim
describes — mimetype u16, parameter-length byte, namespace byte, revision
u32, then a redirect-target u32 (sentinel mimetype 0xFFFF) or cluster u32
and blob u32, then NUL-terminated URL and title, then `parameter-length`
bytes of ignored trailing parameters. -/
structure SpecDirEntry where
  mimetype : ℕ
  nsChar : ℕ
  revision : ℕ
  redirect : Option ℕ
  cluster : ℕ
  blob : ℕ
  url : List ℕ
  title : List ℕ
  deriving Repr, DecidableEq

/-- Modelled from the spec: NUL-terminated string read for the claim layout. -/
def specReadNul (bs : List ℕ) (pos : ℕ) : Option (List ℕ × ℕ) :=
  match findNul (bs.drop pos) with
  | none => none
  | some i => some ((bs.drop pos).take i, pos + i + 1)

/-- Modelled from the spec: decoder for the claim's directory-entry layout. -/
def specDirEntryParse (bs : List ℕ) : Option SpecDirEntry := do
  let m ← readU16 bs 0
  let plen ← readU8 bs 2
  let ns ← readU8 bs 3
  let rev ← readU32 bs 4
  if m = 65535 then do
    let tgt ← readU32 bs 8
    let (url, p1) ← specReadNul bs 12
    let (title, p2) ← specReadNul bs p1
    if p2 + plen ≤ bs.length then
      pure ⟨m, ns, rev, some tgt, 0, 0, url, title⟩
    else none
  else do
    let c ← readU32 bs 8
    let b ← readU32 bs 12
    let (url, p1) ← specReadNul bs 16
    let (title, p2) ← specReadNul bs p1
    if p2 + plen ≤ bs.length then
      pure ⟨m, ns, rev, none, c, b, url, title⟩
    else none

/-- C4 counterexample: a content entry laid out exactly as the claim
describes (mimetype 47, namespace 65, cluster 2, blob 3, URL `U`, title `T`)
is decoded by the code with the URL bytes read first as the path and the
numeric fields misaligned, so the claimed read order is not what the code
does. -/
theorem claim_C4_counterexample :
    specDirEntryParse
        [47, 0, 0, 65, 0, 0, 0, 0, 2, 0, 0, 0, 3, 0, 0, 0, 85, 0, 84, 0] =
      some ⟨47, 65, 0, none, 2, 3, [85], [84]⟩ ∧
    parse_dir_entry_minimal
        [47, 0, 0, 65, 0, 0, 0, 0, 2, 0, 0, 0, 3, 0, 0, 0, 85, 0, 84, 0] 0 =
      .ok ⟨[47], [], 65, 33554432, 50331648, 0⟩ ∧
    (65 : ℕ) ≠ 47 ∧ ([47] : List ℕ) ≠ [85] := by
  refine ⟨rfl, rfl, by decide, by decide⟩

theorem findNul_append {u : List ℕ} (h : ∀ x ∈ u, x ≠ 0) (tail : List ℕ) :
    findNul (u ++ 0 :: tail) = some u.length := by
  induction u with
  | nil => simp [findNul]
  | cons b r ih =>
    have hb : b ≠ 0 := h b (List.mem_cons_self _ _)
    rw [List.cons_append, findNul, if_neg hb,
      ih (fun x hx => h x (List.mem_cons_of_mem _ hx))]
    rfl

theorem read_nul_string_at {slice : List ℕ} {pos : ℕ} {u tail : List ℕ}
    (hdrop : slice.drop pos = u ++ 0 :: tail) (h0 : ∀ x ∈ u, x ≠ 0)
    (hu : utf8Ok u = true) :
    read_nul_string slice pos = .ok (u, pos + u.length + 1) := by
  unfold read_nul_string
  rw [hdrop, findNul_append h0]
  dsimp only
  rw [List.take_left]
  rw [if_pos hu]

theorem drop_past {bs x y : List ℕ} {p : ℕ} (h : bs.drop p = x ++ y) :
    bs.drop (p + x.length) = y := by
  rw [← List.drop_drop, h, List.drop_left]

theorem readU16_at {bs : List ℕ} {pos m : ℕ} {rest : List ℕ}
    (h : bs.drop pos = u16le m ++ rest) (hm : m < 65536) :
    readU16 bs pos = some m := by
  have h0 : bs[pos]? = some (m % 256) := by
    have := List.getElem?_drop bs pos 0
    rw [h] at this
    simpa [u16le] using this.symm
  have h1 : bs[pos + 1]? = some (m / 256 % 256) := by
    have := List.getElem?_drop bs pos 1
    rw [h] at this
    simpa [u16le] using this.symm
  unfold readU16
  rw [h0, h1]
  have : m % 256 + 256 * (m / 256 % 256) = m := by omega
  simp [this]

theorem readU32_at {bs : List ℕ} {pos c : ℕ} {rest : List ℕ}
    (h : bs.drop pos = u32le c ++ rest) (hc : c < 4294967296) :
    readU32 bs pos = some c := by
  have h0 : bs[pos]? = some (c % 256) := by
    have := List.getElem?_drop bs pos 0
    rw [h] at this
    simpa [u32le] using this.symm
  have h1 : bs[pos + 1]? = some (c / 256 % 256) := by
    have := List.getElem?_drop bs pos 1
    rw [h] at this
    simpa [u32le] using this.symm
  have h2 : bs[pos + 2]? = some (c / 65536 % 256) := by
    have := List.getElem?_drop bs pos 2
    rw [h] at this
    simpa [u32le] using this.symm
  have h3 : bs[pos + 3]? = some (c / 16777216 % 256) := by
    have := List.getElem?_drop bs pos 3
    rw [h] at this
    simpa [u32le] using this.symm
  unfold readU32
  rw [h0, h1, h2, h3]
  have : c % 256 + 256 * (c / 256 % 256) + 65536 * (c / 65536 % 256)
      + 16777216 * (c / 16777216 % 256) = c := by omega
  simp [this]

/-- C4 (amended): decoding a directory entry reads, in order, the
NUL-terminated URL (path) string, the NUL-terminated title string, then a
mimetype u16, a cluster u32 and a blob u32, all little-endian; no
parameter-length, namespace, revision or redirect field is decoded, and
trailing bytes are ignored. -/
theorem claim_C4_entry_layout (u t2 : List ℕ) (m c b : ℕ) (rest : List ℕ)
    (hu0 : ∀ x ∈ u, x ≠ 0) (ht0 : ∀ x ∈ t2, x ≠ 0)
    (huu : utf8Ok u = true) (htu : utf8Ok t2 = true)
    (hm : m < 65536) (hc : c < 4294967296) (hb : b < 4294967296) :
    parse_dir_entry_minimal
        (u ++ 0 :: (t2 ++ 0 :: (u16le m ++ (u32le c ++ (u32le b ++ rest))))) 0 =
      .ok ⟨u, t2, m, c, b, 0⟩ := by
  set mmap := u ++ 0 :: (t2 ++ 0 :: (u16le m ++ (u32le c ++ (u32le b ++ rest))))
    with hmmap
  have hlen : mmap.length =
      u.length + 1 + (t2.length + 1 + (2 + (4 + (4 + rest.length)))) := by
    simp [hmmap, u16le, u32le]
    omega
  have hpos : ¬(0 ≥ mmap.length) := by omega
  have hdrop0 : mmap.drop 0 = u ++ 0 :: (t2 ++ 0 :: (u16le m ++ (u32le c ++ (u32le b ++ rest)))) := by
    rw [List.drop_zero]
  have hrns1 := read_nul_string_at hdrop0 hu0 huu
  have hdrop1 : mmap.drop (0 + u.length + 1) =
      t2 ++ 0 :: (u16le m ++ (u32le c ++ (u32le b ++ rest))) := by
    have hsplit : mmap.drop 0 = (u ++ [0]) ++ (t2 ++ 0 :: (u16le m ++ (u32le c ++ (u32le b ++ rest)))) := by
      rw [hdrop0]
      simp
    have := drop_past hsplit
    simpa [Nat.add_comm, Nat.add_assoc, Nat.add_left_comm] using this
  have hrns2 := read_nul_string_at hdrop1 ht0 htu
  have hdrop2 : mmap.drop (0 + u.length + 1 + t2.length + 1) =
      u16le m ++ (u32le c ++ (u32le b ++ rest)) := by
    have hsplit : mmap.drop (0 + u.length + 1) =
        (t2 ++ [0]) ++ (u16le m ++ (u32le c ++ (u32le b ++ rest))) := by
      rw [hdrop1]
      simp
    have := drop_past hsplit
    have harith : 0 + u.length + 1 + (t2.length + 1)
        = 0 + u.length + 1 + t2.length + 1 := by omega
    simpa [harith] using this
  have hdrop3 : mmap.drop (0 + u.length + 1 + t2.length + 1 + 2) =
      u32le c ++ (u32le b ++ rest) := by
    have := drop_past hdrop2
    simpa [u16le] using this
  have hdrop4 : mmap.drop (0 + u.length + 1 + t2.length + 1 + 2 + 4) =
      u32le b ++ rest := by
    have := drop_past hdrop3
    simpa [u32le] using this
  unfold parse_dir_entry_minimal
  rw [if_neg hpos]
  dsimp only
  rw [List.drop_zero]
  rw [hrns1]
  dsimp only
  rw [hrns2]
  dsimp only
  rw [if_neg (by omega)]
  rw [readU16_at hdrop2 hm]
  rw [readU32_at (by simpa [Nat.add_assoc] using hdrop3) hc]
  rw [readU32_at (by
    have harith : 0 + u.length + 1 + t2.length + 1 + (2 + 4)
        = 0 + u.length + 1 + t2.length + 1 + 2 + 4 := by omega
    rw [harith]
    exact hdrop4) hb]

theorem claim_C4_entry_layout_witness :
    (∀ x ∈ [85], x ≠ 0) ∧ (∀ x ∈ [84], x ≠ 0) ∧
    utf8Ok [85] = true ∧ utf8Ok [84] = true ∧
    47 < 65536 ∧ 2 < 4294967296 ∧ 3 < 4294967296 ∧
    parse_dir_entry_minimal
        ([85] ++ 0 :: ([84] ++ 0 :: (u16le 47 ++ (u32le 2 ++ (u32le 3 ++ [9]))))) 0 =
      .ok ⟨[85], [84], 47, 2, 3, 0⟩ :=
  ⟨by decide, by decide, by decide, by decide, by decide, by decide, by decide,
   claim_C4_entry_layout [85] [84] 47 2 3 [9] (by decide) (by decide)
     (by decide) (by decide) (by decide) (by decide) (by decide)⟩

/-! ### C3: cluster decompression and blob extraction -/

/-- Consecutive u32 reads for the blob-offset table. -/
def readOffsets (bs : List ℕ) : ℕ → ℕ → Option (List ℕ)
  | _, 0 => some []
  | pos, n + 1 => do
    let v ← readU32 bs pos
    let rest ← readOffsets bs (pos + 4) n
    pure (v :: rest)

def clusterStartOf (cluster_ptrs : List ℕ) (c : ℕ) : ℕ := cluster_ptrs.getD c 0

def clusterEndOf (cluster_ptrs : List ℕ) (mmap : List ℕ) (c : ℕ) : ℕ :=
  if c + 1 < cluster_ptrs.length then cluster_ptrs.getD (c + 1) 0
  else mmap.length

/-- `get_article_html`: resolve the cluster's byte range from the cluster
pointer table, pass the whole range to the xz decoder (`xz2`, supplied as a
function; its failure message becomes a `Decompress` error), then parse the
blob-offset table of the decompressed cluster and cut out the requested
blob, which must be valid UTF-8. No compression header byte is examined. -/
def get_article_html (xz : List ℕ → Except String (List ℕ)) (mmap : List ℕ)
    (cluster_ptrs : List ℕ) (entry : DirEntry) : Except ZimError (List ℕ) :=
  if entry.cluster ≥ cluster_ptrs.length then .error .EntryParse
  else
    let cluster_start := clusterStartOf cluster_ptrs entry.cluster
    let cluster_end := clusterEndOf cluster_ptrs mmap entry.cluster
    if cluster_start ≥ cluster_end ∨ cluster_end > mmap.length then
      .error .EntryParse
    else
      match xz ((mmap.take cluster_end).drop cluster_start) with
      | .error msg => .error (.Decompress msg)
      | .ok decompressed =>
        match readU32 decompressed 0 with
        | none => .error .EntryParse
        | some blob_count =>
          match readOffsets decompressed 4 blob_count with
          | none => .error .EntryParse
          | some offsets0 =>
            let offsets := offsets0 ++ [decompressed.length]
            if entry.blob_index ≥ offsets.length - 1 then .error .EntryParse
            else
              let bstart := offsets.getD entry.blob_index 0
              let bend := offsets.getD (entry.blob_index + 1) 0
              if bstart ≥ bend ∨ bend > decompressed.length then
                .error .EntryParse
              else
                let blob := (decompressed.take bend).drop bstart
                if utf8Ok blob then .ok blob else .error .Utf8

/-- Modelled from the spec (claim C3): blob extraction from a decoded
cluster body per the claimed offset-table layout. -/
def specBlobFrom (d : List ℕ) (blob_idx : ℕ) : Except ZimError (List ℕ) :=
  match readU32 d 0 with
  | none => .error .EntryParse
  | some blob_count =>
    match readOffsets d 4 blob_count with
    | none => .error .EntryParse
    | some offsets0 =>
      let offsets := offsets0 ++ [d.length]
      if blob_idx ≥ offsets.length - 1 then .error .EntryParse
      else
        let bstart := offsets.getD blob_idx 0
        let bend := offsets.getD (blob_idx + 1) 0
        if bstart ≥ bend ∨ bend > d.length then .error .EntryParse
        else .ok ((d.take bend).drop bstart)

/-- Modelled from the spec (claim C3): blob reading decodes the cluster's
one-byte compression/flags header and selects the codec from its low nibble
(0/1 = stored, 4 = XZ, 5 = Zstandard, rejected as unsupported, like any
unrecognized code). -/
def specClusterBlob (xz : List ℕ → Except String (List ℕ))
    (cluster : List ℕ) (blob_idx : ℕ) : Except ZimError (List ℕ) :=
  match cluster with
  | [] => .error .EntryParse
  | flags :: body =>
    if flags % 16 = 0 ∨ flags % 16 = 1 then specBlobFrom body blob_idx
    else if flags % 16 = 4 then
      match xz body with
      | .error msg => .error (.Decompress msg)
      | .ok d => specBlobFrom d blob_idx
    else .error .Unsupported

/-- An xz decoder that rejects anything (for concrete non-XZ payloads). -/
def xzFail : List ℕ → Except String (List ℕ) := fun _ => .error "corrupt"

/-- C3 counterexample: on a stored (flags byte 1) cluster holding the single
blob `hi`, the claimed dispatch returns the blob, but the code hands the
whole cluster to the xz decoder and reports a `Decompress` failure; on a
Zstandard-flagged (5) cluster the claim demands an unsupported-codec
failure, but the code again reports a `Decompress` failure. -/
theorem claim_C3_counterexample :
    specClusterBlob xzFail
        (1 :: [1, 0, 0, 0, 8, 0, 0, 0, 104, 105]) 0 = .ok [104, 105] ∧
    get_article_html xzFail
        (1 :: [1, 0, 0, 0, 8, 0, 0, 0, 104, 105]) [0] ⟨[], [], 0, 0, 0, 0⟩ =
      .error (.Decompress "corrupt") ∧
    specClusterBlob xzFail
        (5 :: [1, 0, 0, 0, 8, 0, 0, 0, 104, 105]) 0 = .error .Unsupported ∧
    get_article_html xzFail
        (5 :: [1, 0, 0, 0, 8, 0, 0, 0, 104, 105]) [0] ⟨[], [], 0, 0, 0, 0⟩ =
      .error (.Decompress "corrupt") := by
  refine ⟨rfl, rfl, rfl, rfl⟩

/-- C3 (amended): reading a blob never decodes a compression/flags header:
the entire cluster byte range is passed to the XZ decoder unconditionally,
and whenever the decoder rejects the payload (a stored or
Zstandard-compressed cluster, or any other non-XZ content), the result is a
reported `Decompress` failure for that blob — an error value, never a crash;
no unsupported-codec error exists in the code. -/
theorem claim_C3_always_xz (xz : List ℕ → Except String (List ℕ))
    (mmap cluster_ptrs : List ℕ) (entry : DirEntry) (msg : String)
    (h1 : entry.cluster < cluster_ptrs.length)
    (h2 : clusterStartOf cluster_ptrs entry.cluster <
      clusterEndOf cluster_ptrs mmap entry.cluster)
    (h3 : clusterEndOf cluster_ptrs mmap entry.cluster ≤ mmap.length)
    (hxz : xz ((mmap.take (clusterEndOf cluster_ptrs mmap entry.cluster)).drop
      (clusterStartOf cluster_ptrs entry.cluster)) = .error msg) :
    get_article_html xz mmap cluster_ptrs entry = .error (.Decompress msg) := by
  unfold get_article_html
  rw [if_neg (by omega)]
  dsimp only
  rw [if_neg (by omega)]
  rw [hxz]

theorem claim_C3_always_xz_witness :
    (0 : ℕ) < 1 ∧
    clusterStartOf [0] 0 < clusterEndOf [0] [1, 2, 3] 0 ∧
    clusterEndOf [0] [1, 2, 3] 0 ≤ 3 ∧
    xzFail (([1, 2, 3].take (clusterEndOf [0] [1, 2, 3] 0)).drop
      (clusterStartOf [0] 0)) = .error "corrupt" ∧
    get_article_html xzFail [1, 2, 3] [0] ⟨[], [], 0, 0, 0, 0⟩ =
      .error (.Decompress "corrupt") :=
  ⟨by decide, by decide, by decide, rfl,
   claim_C3_always_xz xzFail [1, 2, 3] [0] ⟨[], [], 0, 0, 0, 0⟩ "corrupt"
     (by decide) (by decide) (by decide) rfl⟩

end WikiSearch
